import Mathlib

/-!
Verification development for the `local-sync` runtime primitives:
the block-pooled MPSC queue (`src/mpsc/block.rs`) and the oneshot
channel (`src/oneshot.rs`).

The Rust source is shallowly embedded: the raw-pointer heap of `Block`s is
modelled as a list of blocks indexed by natural-number addresses (a pointer
is an index, the null pointer is `none`), `MaybeUninit` slots are modelled
as `Option` values (`none` = uninitialized), and operations that can panic
or hit undefined behaviour return `Option` (`none` = the panicking/UB path).
-/

set_option maxHeartbeats 1000000

namespace LocalSync

namespace Mpsc

/-- `const BLOCK_CAP: usize = 32`. -/
def BLOCK_CAP : Nat := 32

/-- `Block<T>`: a fixed-capacity segment of slots plus a forward link.
`next` is the raw pointer to the next block (`none` = null), `values`
models the `[UnsafeCell<MaybeUninit<T>>; BLOCK_CAP]` array as a function
from slot index to its contents (`none` = uninitialized), `begin`/`end`
are the read/write cursors. -/
structure Block (α : Type) where
  next : Option Nat
  values : Nat → Option α
  begin : Nat
  «end» : Nat

/-- `Block::new()`: cursors zero, link null, slots uninitialized. -/
def Block.new : Block α :=
  ⟨none, fun _ => none, 0, 0⟩

/-- `Block::len()`. -/
def Block.len (b : Block α) : Nat :=
  b.«end» - b.begin

/-- `Block::is_empty()`. -/
def Block.is_empty (b : Block α) : Bool :=
  b.«end» == b.begin

/-- `Block::reset()`: clear the link and zero both cursors (the slot
contents, being `MaybeUninit`, are left as-is, exactly as in the source). -/
def Block.reset (b : Block α) : Block α :=
  { b with next := none, begin := 0, «end» := 0 }

/-- Dereference a block address in the heap.  Out-of-range addresses give
a fresh block; the queue invariant keeps all dereferenced addresses in
range, so this default is never observed on the verified paths. -/
def blkAt (blocks : List (Block α)) : Nat → Block α :=
  fun a =>
    match blocks, a with
    | [], _ => Block.new
    | b :: _, 0 => b
    | _ :: bs, n + 1 => blkAt bs n

/-- `Queue<T>`: the heap of all allocated blocks plus the `head`/`tail`
block addresses, the live-value count `len` and the capacity `cap`
(`0` means unbounded). -/
structure Queue (α : Type) where
  blocks : List (Block α)
  head : Nat
  tail : Nat
  len : Nat
  cap : Nat

/-- `Queue::new(cap)`: one initial block, `head == tail`, `len = 0`,
`cap = cap.unwrap_or_default()`. -/
def Queue.new (cap : Option Nat) : Queue α :=
  ⟨[Block.new], 0, 0, 0, cap.getD 0⟩

/-- `Queue::is_empty()`. -/
def Queue.is_empty (q : Queue α) : Bool :=
  q.len == 0

/-- `Queue::is_full()`, translated verbatim from the source body
`self.cap == 0 || self.len < self.cap`.  (Note its doc comment in the
source says it is always false for an unbounded queue.) -/
def Queue.is_full (q : Queue α) : Bool :=
  q.cap == 0 || decide (q.len < q.cap)

/-- The write performed at the tail block by `push_unchecked`: the value
is written at `offset = end` and `end` is bumped. -/
def pushedBlock (b : Block α) (v : α) : Block α :=
  { b with
      «end» := b.«end» + 1
      values := fun i => if i = b.«end» then some v else b.values i }

/-- `Queue::push_unchecked(value)`: write at the tail block's `end`
cursor, bump `end` and `len`; if the tail block became full, advance
`tail` to the linked block if present, else allocate a fresh block at the
next free address, link it and advance `tail` to it. -/
def Queue.push_unchecked (q : Queue α) (v : α) : Queue α :=
  let blk := pushedBlock (blkAt q.blocks q.tail) v
  let q1 : Queue α := { q with blocks := q.blocks.set q.tail blk, len := q.len + 1 }
  if blk.«end» = BLOCK_CAP then
    match blk.next with
    | some ptr => { q1 with tail := ptr }
    | none =>
      let newAddr := q1.blocks.length
      { q1 with
          blocks := q1.blocks.set q1.tail { blk with next := some newAddr } ++ [Block.new],
          tail := newAddr }
  else
    q1

/-- `Queue::pop_unchecked()`: read at the head block's `begin` cursor and
bump it, decrement `len`; if the head block became drained
(`begin == BLOCK_CAP`), advance `head` to the next linked block
(`expect("internal error")`, modelled as `none` when absent) and recycle
the drained block: reset it and splice it in immediately after the
current tail.  Reading an uninitialized slot is undefined behaviour in
the source and is modelled as `none`. -/
def Queue.pop_unchecked (q : Queue α) : Option (α × Queue α) :=
  let blk := blkAt q.blocks q.head
  let offset := blk.begin
  match blk.values offset with
  | none => none
  | some value =>
    let blk : Block α := { blk with begin := blk.begin + 1 }
    let q1 : Queue α := { q with blocks := q.blocks.set q.head blk, len := q.len - 1 }
    if blk.begin = BLOCK_CAP then
      match blk.next with
      | none => none
      | some nextAddr =>
        let tailBlk := blkAt q1.blocks q1.tail
        let free_blocks := tailBlk.next
        let blk2 : Block α := { blk.reset with next := free_blocks }
        let blocks2 := q1.blocks.set q1.head blk2
        let blocks3 := blocks2.set q1.tail { blkAt blocks2 q1.tail with next := some q1.head }
        some (value, { q1 with blocks := blocks3, head := nextAddr })
    else
      some (value, q1)

/-- Walk the linked chain of blocks starting at a given address, producing
the visited addresses in order.  The fuel bounds the walk; under the queue
invariant the chain is acyclic and contains at most `blocks.length`
addresses, so the fuel is never exhausted. -/
def walkChain (blocks : List (Block α)) : Option Nat → Nat → List Nat
  | _, 0 => []
  | none, _ => []
  | some a, fuel + 1 => a :: walkChain blocks (blkAt blocks a).next fuel

/-- The order in which `Queue::free_blocks` visits and deallocates blocks:
starting at `head` and following each block's link. -/
def Queue.free_blocks_order (q : Queue α) : List Nat :=
  walkChain q.blocks (some q.head) q.blocks.length

/-- The values whose destructor runs when one `Block` is deallocated by
`drop(Box::from_raw(..))` in `free_blocks`.  The slots are
`UnsafeCell<MaybeUninit<T>>`, and `MaybeUninit`'s drop never runs the
element destructor, so deallocating a block drops no values. -/
def Block.droppedValues (_b : Block α) : List α :=
  []

/-- All values dropped during `Queue::free_blocks`. -/
def Queue.free_blocks_dropped (q : Queue α) : List α :=
  go q.blocks q.free_blocks_order
where
  go (blocks : List (Block α)) : List Nat → List α
    | [] => []
    | a :: rest => (blkAt blocks a).droppedValues ++ go blocks rest

/-- The contents of `k` consecutive slots of a block starting at index `i`. -/
def slotsFrom (b : Block α) (i : Nat) : Nat → List (Option α)
  | 0 => []
  | k + 1 => b.values i :: slotsFrom b (i + 1) k

/-- The live slots of a block: indices in `[begin, end)`. -/
def Block.liveSlots (b : Block α) : List (Option α) :=
  slotsFrom b b.begin (b.«end» - b.begin)

/-- The logical contents of the chain of blocks at the given addresses,
in order: the concatenation of each block's live slots. -/
def chainList (blocks : List (Block α)) : List Nat → List (Option α)
  | [] => []
  | a :: rest => (blkAt blocks a).liveSlots ++ chainList blocks rest

/-- `pathOk blocks addrs y`: each address in `addrs` links to the next,
and the last one links to `y`.  (Vacuously true for `[]`.) -/
def pathOk (blocks : List (Block α)) : List Nat → Nat → Bool
  | [], _ => true
  | [a], y => (blkAt blocks a).next == some y
  | a :: b :: rest, y => ((blkAt blocks a).next == some b) && pathOk blocks (b :: rest) y

/-- `chainOk blocks addrs`: each address in `addrs` links to the next,
and the last one's link is null. -/
def chainOk (blocks : List (Block α)) : List Nat → Bool
  | [] => true
  | [a] => (blkAt blocks a).next == none
  | a :: b :: rest => ((blkAt blocks a).next == some b) && chainOk blocks (b :: rest)

/-- Sum of `end - begin` over the blocks at the given addresses. -/
def sumLens (blocks : List (Block α)) : List Nat → Nat
  | [] => 0
  | a :: rest => (blkAt blocks a).len + sumLens blocks rest

/-- The queue's structural invariant, witnessed by the concrete address
lists `live` (the head→tail chain) and `free` (the recycled blocks linked
after the tail): the whole allocation is one acyclic null-terminated chain
`live ++ free` of in-range, pairwise-distinct addresses; free blocks have
both cursors zero; every live block left of the tail is write-full, every
live block past the head has `begin = 0`; the tail always has room and the
head always has a readable cursor; all live slots are initialized; and
`len` is the number of live slots. -/
def QInvAt (q : Queue α) (live free : List Nat) : Prop :=
  live.head? = some q.head ∧
  live.getLast? = some q.tail ∧
  (live ++ free).Nodup ∧
  (∀ a ∈ live ++ free, a < q.blocks.length) ∧
  chainOk q.blocks (live ++ free) = true ∧
  (∀ a ∈ free, (blkAt q.blocks a).begin = 0 ∧ (blkAt q.blocks a).«end» = 0) ∧
  (blkAt q.blocks q.tail).«end» < BLOCK_CAP ∧
  (∀ a ∈ live, a ≠ q.tail → (blkAt q.blocks a).«end» = BLOCK_CAP) ∧
  (∀ a ∈ live, a ≠ q.head → (blkAt q.blocks a).begin = 0) ∧
  (blkAt q.blocks q.head).begin ≤ (blkAt q.blocks q.head).«end» ∧
  (blkAt q.blocks q.head).begin < BLOCK_CAP ∧
  (∀ a ∈ live, ∀ o ∈ (blkAt q.blocks a).liveSlots, o.isSome = true) ∧
  q.len = (chainList q.blocks live).length

/-- A queue represents a list of values: the invariant holds and the live
chain holds exactly those values in FIFO order. -/
def ReprVals (q : Queue α) (vs : List α) : Prop :=
  ∃ live free, QInvAt q live free ∧ chainList q.blocks live = vs.map some

/-- One queue operation. -/
inductive QOp (α : Type) where
  | push (v : α)
  | pop

/-- Execute one operation under the caller-checked discipline documented
for the unchecked primitives: push only when the queue is not at capacity
(`cap == 0` or `len < cap`), pop only when non-empty. -/
def stepOp (q : Queue α) : QOp α → Option (Queue α)
  | QOp.push v => if q.cap = 0 ∨ q.len < q.cap then some (q.push_unchecked v) else none
  | QOp.pop => if 0 < q.len then (q.pop_unchecked).map Prod.snd else none

/-- Execute a sequence of operations under the caller-checked discipline. -/
def runOps (q : Queue α) : List (QOp α) → Option (Queue α)
  | [] => some q
  | op :: ops =>
    match stepOp q op with
    | some q1 => runOps q1 ops
    | none => none

/-- Push a whole list of values in order. -/
def pushAll (q : Queue α) (vs : List α) : Queue α :=
  vs.foldl Queue.push_unchecked q

/-- Pop `k` values, collecting them in order. -/
def popN (q : Queue α) : Nat → Option (List α × Queue α)
  | 0 => some ([], q)
  | k + 1 =>
    match q.pop_unchecked with
    | some (v, q1) =>
      match popN q1 k with
      | some (l, q2) => some (v :: l, q2)
      | none => none
    | none => none

/-- The invariant statement checked after a (possibly failing) run:
if the run respected the discipline, the final queue satisfies the
structural invariant, its `len` is the sum of `end - begin` over the
head→tail chain, and `len ≤ cap` whenever `cap ≠ 0`. -/
def C7Post : Option (Queue α) → Prop
  | none => True
  | some q =>
    ∃ live free, QInvAt q live free ∧ q.len = sumLens q.blocks live ∧
      (q.cap ≠ 0 → q.len ≤ q.cap)

/-- A concrete unbounded queue about to recycle: two blocks, the head
block full on the write side (`end = 32`) and drained up to its last
slot (`begin = 31`, holding value 99), the tail block fresh. -/
def recycleReadyQueue : Queue Nat :=
  ⟨[⟨some 1, fun _ => some 99, 31, 32⟩, Block.new], 0, 1, 1, 0⟩

end Mpsc

namespace Oneshot

/-- `Poll` outcome of polling a future. -/
inductive Poll (α : Type) where
  | Ready (a : α)
  | Pending
deriving DecidableEq, Repr

/-- `error::RecvError`. -/
inductive RecvError where
  | mk
deriving DecidableEq, Repr

/-- `error::TryRecvError`. -/
inductive TryRecvError where
  | Empty
  | Closed
deriving DecidableEq, Repr

/-- `const RX_TASK_SET: usize = 0b00001`. -/
def RX_TASK_SET : Nat := 1
/-- `const VALUE_SENT: usize = 0b00010`. -/
def VALUE_SENT : Nat := 2
/-- `const CLOSED: usize = 0b00100`. -/
def CLOSED : Nat := 4
/-- `const TX_TASK_SET: usize = 0b01000`. -/
def TX_TASK_SET : Nat := 8

/-- All bits of a 64-bit `usize`; `!mask` in the source is
`USIZE_MASK - mask` for the single-bit masks used here. -/
def USIZE_MASK : Nat := 2 ^ 64 - 1

/-- `State::is_complete`: `self.0 & VALUE_SENT == VALUE_SENT`. -/
def is_complete (s : Nat) : Bool := s &&& VALUE_SENT == VALUE_SENT

/-- `State::is_closed`: `self.0 & CLOSED == CLOSED`. -/
def is_closed (s : Nat) : Bool := s &&& CLOSED == CLOSED

/-- `State::is_rx_task_set`. -/
def is_rx_task_set (s : Nat) : Bool := s &&& RX_TASK_SET == RX_TASK_SET

/-- `State::is_tx_task_set`. -/
def is_tx_task_set (s : Nat) : Bool := s &&& TX_TASK_SET == TX_TASK_SET

/-- `Inner<T>`: the shared cell.  A waker (`std::task::Waker`) is modelled
by a numeric id; a `Task` slot is `Option Nat` (`none` = the
`MaybeUninit` storage is uninitialized).  Whether a slot may be read is
governed by the corresponding state bit, exactly as in the source. -/
structure Inner (α : Type) where
  state : Nat
  value : Option α
  tx_task : Option Nat
  rx_task : Option Nat
deriving DecidableEq, Repr

/-- `Task::will_wake`: does the stored waker wake the same task as the
waker `w` of the polling context?  (Two modelled wakers wake the same
task iff their ids are equal; reading an unset slot is UB in the source
and never happens on verified paths.) -/
def willWake (t : Option Nat) (w : Nat) : Bool := t == some w

/-- The list of task ids woken by `with_task(Waker::wake_by_ref)` on a slot. -/
def wakeList (t : Option Nat) : List Nat := t.toList

/-- `Inner::complete`: set `VALUE_SENT`; if the previous state was closed,
report failure; otherwise wake a registered `rx_task` waker and report
success.  Returns (success, new inner, woken task ids). -/
def Inner.complete (i : Inner α) : Bool × Inner α × List Nat :=
  let prev := i.state
  let i1 : Inner α := { i with state := prev ||| VALUE_SENT }
  if is_closed prev then (false, i1, [])
  else if is_rx_task_set prev then (true, i1, wakeList i1.rx_task)
  else (true, i1, [])

/-- `Inner::consume_value`: take the value out of the cell. -/
def Inner.consume_value (i : Inner α) : Option α × Inner α :=
  (i.value, { i with value := none })

/-- `Inner::close`: set `CLOSED`; if a `tx_task` waker was registered and
the channel was not already complete, wake it. -/
def Inner.close (i : Inner α) : Inner α × List Nat :=
  let prev := i.state
  let i1 : Inner α := { i with state := prev ||| CLOSED }
  if is_tx_task_set prev && !is_complete prev then (i1, wakeList i1.tx_task)
  else (i1, [])

/-- `Inner::poll_recv`: if complete, take the value (`Ready(Ok)`) or
report `Ready(Err)` when it is absent; if closed, `Ready(Err)`; otherwise
run the stale-waker discipline on `rx_task` (drop-and-replace when the
stored waker would not wake this task), re-checking completeness after
each state write exactly as the source does, and report `Pending`. -/
def Inner.poll_recv (i : Inner α) (w : Nat) : Poll (Except RecvError α) × Inner α :=
  let state := i.state
  if is_complete state then
    match i.value with
    | some v => (Poll.Ready (Except.ok v), { i with value := none })
    | none => (Poll.Ready (Except.error RecvError.mk), i)
  else if is_closed state then
    (Poll.Ready (Except.error RecvError.mk), i)
  else
    if is_rx_task_set state then
      if willWake i.rx_task w then
        (Poll.Pending, i)
      else
        let i1 : Inner α := { i with state := state &&& (USIZE_MASK - RX_TASK_SET) }
        if is_complete i1.state then
          let i2 : Inner α := { i1 with state := i1.state ||| RX_TASK_SET }
          match i2.value with
          | some v => (Poll.Ready (Except.ok v), { i2 with value := none })
          | none => (Poll.Ready (Except.error RecvError.mk), i2)
        else
          let i2 : Inner α := { i1 with rx_task := none }
          let i3 : Inner α := { i2 with rx_task := some w, state := i2.state ||| RX_TASK_SET }
          if is_complete i3.state then
            match i3.value with
            | some v => (Poll.Ready (Except.ok v), { i3 with value := none })
            | none => (Poll.Ready (Except.error RecvError.mk), i3)
          else (Poll.Pending, i3)
    else
      let i1 : Inner α := { i with rx_task := some w, state := state ||| RX_TASK_SET }
      if is_complete i1.state then
        match i1.value with
        | some v => (Poll.Ready (Except.ok v), { i1 with value := none })
        | none => (Poll.Ready (Except.error RecvError.mk), i1)
      else (Poll.Pending, i1)

/-- `Sender::poll_closed`: ready when closed, otherwise register (or
refresh, under the stale-waker discipline) the `tx_task` waker and report
`Pending`, re-checking closedness after each state write exactly as the
source does. -/
def Inner.poll_closed (i : Inner α) (w : Nat) : Poll Unit × Inner α :=
  let state := i.state
  if is_closed state then (Poll.Ready (), i)
  else
    if is_tx_task_set state then
      if willWake i.tx_task w then
        (Poll.Pending, i)
      else
        let i1 : Inner α := { i with state := state &&& (USIZE_MASK - TX_TASK_SET) }
        if is_closed i1.state then
          (Poll.Ready (), { i1 with state := i1.state ||| TX_TASK_SET })
        else
          let i2 : Inner α := { i1 with tx_task := none }
          let i3 : Inner α := { i2 with tx_task := some w, state := i2.state ||| TX_TASK_SET }
          if is_closed i3.state then (Poll.Ready (), i3) else (Poll.Pending, i3)
    else
      let i1 : Inner α := { i with tx_task := some w, state := state ||| TX_TASK_SET }
      if is_closed i1.state then (Poll.Ready (), i1) else (Poll.Pending, i1)

/-- A oneshot channel as a whole: the shared `Inner` plus whether each
handle still holds its `Option<Rc<Inner>>` reference (`Some` = alive).
The code is single-threaded, so one world state suffices. -/
structure Chan (α : Type) where
  inner : Inner α
  txAlive : Bool
  rxAlive : Bool
deriving DecidableEq, Repr

/-- `oneshot::channel()`: fresh state `0`, empty value cell, both waker
slots uninitialized, both handles holding a reference. -/
def channel : Chan α :=
  ⟨⟨0, none, none, none⟩, true, true⟩

/-- `Sender::send(t)`: take the inner reference (consuming the sender),
write the value unconditionally, then attempt to complete; on failure
(channel already closed) retract the value (`consume_value().unwrap()`)
and return it as the error payload.  `none` models the panicking paths
(`unwrap` of a missing reference or of a missing value). -/
def Chan.send (c : Chan α) (t : α) : Option (Except α Unit × Chan α × List Nat) :=
  if c.txAlive then
    let i : Inner α := { c.inner with value := some t }
    match Inner.complete i with
    | (true, i1, wakes) => some (Except.ok (), ⟨i1, false, c.rxAlive⟩, wakes)
    | (false, i1, wakes) =>
      match i1.value with
      | some v => some (Except.error v, ⟨{ i1 with value := none }, false, c.rxAlive⟩, wakes)
      | none => none
  else none

/-- `impl Drop for Sender`: if the reference is still held, complete the
channel (with whatever value is present — none if never sent). -/
def Chan.dropSender (c : Chan α) : Chan α × List Nat :=
  if c.txAlive then
    match Inner.complete c.inner with
    | (_, i1, wakes) => (⟨i1, false, c.rxAlive⟩, wakes)
  else (c, [])

/-- `Receiver::close()`: close the channel if the reference is still held.
Note it does not give up the reference. -/
def Chan.close (c : Chan α) : Chan α × List Nat :=
  if c.rxAlive then
    match Inner.close c.inner with
    | (i1, wakes) => (⟨i1, c.txAlive, true⟩, wakes)
  else (c, [])

/-- `impl Drop for Receiver`: close the channel if the reference is still
held, and give it up. -/
def Chan.dropReceiver (c : Chan α) : Chan α × List Nat :=
  if c.rxAlive then
    match Inner.close c.inner with
    | (i1, wakes) => (⟨i1, c.txAlive, false⟩, wakes)
  else (c, [])

/-- `Receiver::try_recv()`: if complete, take the value or report
`Closed`; if closed, `Closed`; otherwise `Empty` — via an early return
that, unlike the other outcomes, does not give up the inner reference.
A receiver that already gave up its reference reports `Closed`. -/
def Chan.try_recv (c : Chan α) : Except TryRecvError α × Chan α :=
  if c.rxAlive then
    let state := c.inner.state
    if is_complete state then
      match c.inner.value with
      | some v => (Except.ok v, ⟨{ c.inner with value := none }, c.txAlive, false⟩)
      | none => (Except.error TryRecvError.Closed, ⟨c.inner, c.txAlive, false⟩)
    else if is_closed state then
      (Except.error TryRecvError.Closed, ⟨c.inner, c.txAlive, false⟩)
    else
      (Except.error TryRecvError.Empty, c)
  else (Except.error TryRecvError.Closed, c)

/-- `impl Future for Receiver`, `poll`: panic (`none`) when the inner
reference was already given up; otherwise delegate to `poll_recv`.  The
`ready!(..)?` propagation means a `Ready(Err(_))` outcome returns early
and keeps the inner reference; only `Ready(Ok(_))` reaches the
`self.inner = None` line. -/
def Chan.recvPoll (c : Chan α) (w : Nat) : Option (Poll (Except RecvError α) × Chan α) :=
  if c.rxAlive then
    match Inner.poll_recv c.inner w with
    | (Poll.Pending, i1) => some (Poll.Pending, ⟨i1, c.txAlive, true⟩)
    | (Poll.Ready (Except.error e), i1) => some (Poll.Ready (Except.error e), ⟨i1, c.txAlive, true⟩)
    | (Poll.Ready (Except.ok v), i1) => some (Poll.Ready (Except.ok v), ⟨i1, c.txAlive, false⟩)
  else none

end Oneshot

/-!
Theorems.  First a small kit of helper lemmas about the bit-packed state
(every reachable state only uses the low four bits, so facts about the
bit operations are decided over `s < 16`) and about the record-level
shapes of the oneshot operations; then the claim theorems.
-/

namespace Oneshot

theorem closed_bit_lemmas :
    ∀ s < 16, is_closed (s ||| CLOSED) = true ∧
      is_tx_task_set (s ||| CLOSED) = is_tx_task_set s ∧
      is_complete (s ||| CLOSED) = is_complete s ∧
      is_rx_task_set (s ||| CLOSED) = is_rx_task_set s ∧
      s ||| CLOSED < 16 := by decide

theorem sent_bit_lemmas :
    ∀ s < 16, is_complete (s ||| VALUE_SENT) = true ∧
      is_closed (s ||| VALUE_SENT) = is_closed s ∧
      is_tx_task_set (s ||| VALUE_SENT) = is_tx_task_set s ∧
      s ||| VALUE_SENT < 16 := by decide

theorem txset_bit_lemmas :
    ∀ s < 16, is_tx_task_set (s ||| TX_TASK_SET) = true ∧
      is_closed (s ||| TX_TASK_SET) = is_closed s ∧
      is_complete (s ||| TX_TASK_SET) = is_complete s ∧
      s ||| TX_TASK_SET < 16 := by decide

theorem untx_bit_lemmas :
    ∀ s < 16, is_closed (s &&& (USIZE_MASK - TX_TASK_SET)) = is_closed s ∧
      is_complete (s &&& (USIZE_MASK - TX_TASK_SET)) = is_complete s ∧
      is_tx_task_set (s &&& (USIZE_MASK - TX_TASK_SET)) = false ∧
      s &&& (USIZE_MASK - TX_TASK_SET) < 16 := by decide

theorem complete_closed_eq (i : Inner α) (h : is_closed i.state = true) :
    Inner.complete i = (false, { i with state := i.state ||| VALUE_SENT }, []) := by
  unfold Inner.complete
  simp [h]

theorem complete_snd_fst (i : Inner α) :
    (Inner.complete i).2.1 = { i with state := i.state ||| VALUE_SENT } := by
  unfold Inner.complete
  dsimp only
  split
  · rfl
  · split <;> rfl

theorem complete_wakes (i : Inner α) (h1 : is_closed i.state = false)
    (h2 : is_rx_task_set i.state = true) :
    (Inner.complete i).2.2 = wakeList i.rx_task := by
  unfold Inner.complete
  simp [h1, h2]

theorem close_fst (i : Inner α) :
    (Inner.close i).1 = { i with state := i.state ||| CLOSED } := by
  unfold Inner.close
  dsimp only
  split <;> rfl

theorem chan_close_fst (c : Chan α) (h : c.rxAlive = true) :
    (Chan.close c).1 = ⟨{ c.inner with state := c.inner.state ||| CLOSED }, c.txAlive, true⟩ := by
  unfold Chan.close
  rw [h]
  simp only [if_true]
  rw [show Inner.close c.inner = ((Inner.close c.inner).1, (Inner.close c.inner).2) from rfl]
  rw [close_fst]

theorem chan_dropReceiver_fst (c : Chan α) (h : c.rxAlive = true) :
    (Chan.dropReceiver c).1 =
      ⟨{ c.inner with state := c.inner.state ||| CLOSED }, c.txAlive, false⟩ := by
  unfold Chan.dropReceiver
  rw [h]
  simp only [if_true]
  rw [show Inner.close c.inner = ((Inner.close c.inner).1, (Inner.close c.inner).2) from rfl]
  rw [close_fst]

theorem send_closed_eq (c : Chan α) (x : α) (htx : c.txAlive = true)
    (hcl : is_closed c.inner.state = true) :
    c.send x = some (Except.error x,
      ⟨{ c.inner with value := none, state := c.inner.state ||| VALUE_SENT },
        false, c.rxAlive⟩, []) := by
  unfold Chan.send
  dsimp only
  rw [complete_closed_eq ({ c.inner with value := some x } : Inner α) hcl]
  simp [htx]

theorem dropSender_fst (c : Chan α) (h : c.txAlive = true) :
    (Chan.dropSender c).1 =
      ⟨{ c.inner with state := c.inner.state ||| VALUE_SENT }, false, c.rxAlive⟩ := by
  unfold Chan.dropSender
  rw [h]
  simp only [if_true]
  rw [show Inner.complete c.inner =
    ((Inner.complete c.inner).1, (Inner.complete c.inner).2.1, (Inner.complete c.inner).2.2)
    from rfl]
  rw [complete_snd_fst]

theorem dropSender_snd (c : Chan α) (htx : c.txAlive = true)
    (h1 : is_closed c.inner.state = false) (h2 : is_rx_task_set c.inner.state = true) :
    (Chan.dropSender c).2 = wakeList c.inner.rx_task := by
  unfold Chan.dropSender
  rw [htx]
  simp only [if_true]
  rw [show Inner.complete c.inner =
    ((Inner.complete c.inner).1, (Inner.complete c.inner).2.1, (Inner.complete c.inner).2.2)
    from rfl]
  rw [complete_wakes _ h1 h2]

theorem poll_recv_complete_none (i : Inner α) (w : Nat)
    (hc : is_complete i.state = true) (hv : i.value = none) :
    Inner.poll_recv i w = (Poll.Ready (Except.error RecvError.mk), i) := by
  unfold Inner.poll_recv
  simp [hc, hv]

theorem recvPoll_err (c : Chan α) (w : Nat) (hrx : c.rxAlive = true)
    (hc : is_complete c.inner.state = true) (hv : c.inner.value = none) :
    c.recvPoll w = some (Poll.Ready (Except.error RecvError.mk), ⟨c.inner, c.txAlive, true⟩) := by
  unfold Chan.recvPoll
  rw [poll_recv_complete_none c.inner w hc hv]
  simp [hrx]

theorem poll_closed_pending (i : Inner α) (w : Nat) (i1 : Inner α) (h16 : i.state < 16)
    (hp : Inner.poll_closed i w = (Poll.Pending, i1)) :
    i1.tx_task = some w ∧ is_tx_task_set i1.state = true ∧ is_closed i1.state = false ∧
    is_complete i1.state = is_complete i.state ∧ i1.state < 16 := by
  have htl := txset_bit_lemmas i.state h16
  have hul := untx_bit_lemmas i.state h16
  have htl2 := txset_bit_lemmas _ hul.2.2.2
  unfold Inner.poll_closed at hp
  rcases hcl : is_closed i.state with _ | _
  · rcases htx : is_tx_task_set i.state with _ | _
    · have h1 : is_closed (i.state ||| TX_TASK_SET) = false := by
        rw [htl.2.1]
        exact hcl
      simp [hcl, htx, h1] at hp
      rw [← hp]
      refine ⟨rfl, htl.1, h1, htl.2.2.1, htl.2.2.2⟩
    · rcases hww : willWake i.tx_task w with _ | _
      · have h2 : is_closed (i.state &&& (USIZE_MASK - TX_TASK_SET)) = false := by
          rw [hul.1]
          exact hcl
        have h3 : is_closed ((i.state &&& (USIZE_MASK - TX_TASK_SET)) ||| TX_TASK_SET) = false := by
          rw [htl2.2.1]
          exact h2
        simp [hcl, htx, hww, h2, h3] at hp
        rw [← hp]
        refine ⟨rfl, htl2.1, h3, ?_, htl2.2.2.2⟩
        rw [htl2.2.2.1, hul.2.1]
      · simp [hcl, htx, hww] at hp
        rw [← hp]
        exact ⟨eq_of_beq hww, htx, hcl, rfl, h16⟩
  · simp [hcl] at hp

theorem close_wakes_tx (i1 : Inner α) (w : Nat)
    (ht : i1.tx_task = some w) (hb : is_tx_task_set i1.state = true)
    (hnc : is_complete i1.state = false) :
    (Inner.close i1).2 = [w] := by
  unfold Inner.close
  simp [hb, hnc, wakeList, ht]

theorem close_no_wake_complete (i1 : Inner α) (hc : is_complete i1.state = true) :
    (Inner.close i1).2 = [] := by
  unfold Inner.close
  simp [hc]

end Oneshot

namespace Mpsc

theorem blkAt_set_self (blocks : List (Block α)) (i : Nat) (b : Block α)
    (h : i < blocks.length) : blkAt (blocks.set i b) i = b := by
  induction blocks generalizing i with
  | nil => simp at h
  | cons x xs ih =>
    cases i with
    | zero => rfl
    | succ n => exact ih n (Nat.succ_lt_succ_iff.mp h)

theorem blkAt_set_ne (blocks : List (Block α)) (i j : Nat) (b : Block α) (h : i ≠ j) :
    blkAt (blocks.set i b) j = blkAt blocks j := by
  induction blocks generalizing i j with
  | nil => rfl
  | cons x xs ih =>
    cases i with
    | zero =>
      cases j with
      | zero => exact absurd rfl h
      | succ m => rfl
    | succ n =>
      cases j with
      | zero => rfl
      | succ m => exact ih n m (fun hh => h (by rw [hh]))

theorem blkAt_append_lt (blocks extra : List (Block α)) (i : Nat) (h : i < blocks.length) :
    blkAt (blocks ++ extra) i = blkAt blocks i := by
  induction blocks generalizing i with
  | nil => simp at h
  | cons x xs ih =>
    cases i with
    | zero => rfl
    | succ n => exact ih n (Nat.succ_lt_succ_iff.mp h)

theorem blkAt_append_len (blocks : List (Block α)) (x : Block α) :
    blkAt (blocks ++ [x]) blocks.length = x := by
  induction blocks with
  | nil => rfl
  | cons y ys ih => exact ih

theorem slotsFrom_length (b : Block α) (i k : Nat) : (slotsFrom b i k).length = k := by
  induction k generalizing i with
  | zero => rfl
  | succ n ih => simp [slotsFrom, ih]

theorem slotsFrom_congr (b b' : Block α) (i k : Nat)
    (h : ∀ j, i ≤ j → j < i + k → b'.values j = b.values j) :
    slotsFrom b' i k = slotsFrom b i k := by
  induction k generalizing i with
  | zero => rfl
  | succ n ih =>
    simp only [slotsFrom]
    rw [h i (Nat.le_refl i) (by omega)]
    exact congrArg (List.cons (b.values i)) (ih (i + 1) (fun j h1 h2 => h j (by omega) (by omega)))

theorem slotsFrom_snoc (b : Block α) (i k : Nat) :
    slotsFrom b i (k + 1) = slotsFrom b i k ++ [b.values (i + k)] := by
  induction k generalizing i with
  | zero => simp [slotsFrom]
  | succ n ih =>
    have h2 : i + (n + 1) = (i + 1) + n := by omega
    show b.values i :: slotsFrom b (i + 1) (n + 1)
      = (b.values i :: slotsFrom b (i + 1) n) ++ [b.values (i + (n + 1))]
    rw [ih (i + 1), h2]
    simp

/-- The live slots of the tail block after a `push` write: the old live
slots followed by the newly written value. -/
theorem liveSlots_push (b : Block α) (v : α) (hle : b.begin ≤ b.«end») :
    Block.liveSlots (pushedBlock b v) = Block.liveSlots b ++ [some v] := by
  have h1 : b.«end» + 1 - b.begin = (b.«end» - b.begin) + 1 := by omega
  have h2 : b.begin + (b.«end» - b.begin) = b.«end» := by omega
  show slotsFrom (pushedBlock b v) b.begin (b.«end» + 1 - b.begin)
    = slotsFrom b b.begin (b.«end» - b.begin) ++ [some v]
  rw [h1, slotsFrom_snoc]
  rw [slotsFrom_congr b (pushedBlock b v) b.begin (b.«end» - b.begin)
      (fun j hj1 hj2 => by
        show (if j = b.«end» then some v else b.values j) = b.values j
        exact if_neg (by omega))]
  rw [h2]
  show slotsFrom b b.begin (b.«end» - b.begin) ++ [if b.«end» = b.«end» then some v else _]
    = slotsFrom b b.begin (b.«end» - b.begin) ++ [some v]
  rw [if_pos rfl]

/-- The live slots of the head block before a `pop` read: the value at
`begin` followed by the live slots after the cursor bump. -/
theorem liveSlots_pop (b : Block α) (hlt : b.begin < b.«end») :
    Block.liveSlots b
      = b.values b.begin :: Block.liveSlots { b with begin := b.begin + 1 } := by
  unfold Block.liveSlots
  have h1 : b.«end» - b.begin = (b.«end» - (b.begin + 1)) + 1 := by omega
  rw [h1]
  show b.values b.begin :: slotsFrom b (b.begin + 1) (b.«end» - (b.begin + 1)) = _
  exact congrArg _ (slotsFrom_congr b ({ b with begin := b.begin + 1 } : Block α)
    (b.begin + 1) (b.«end» - (b.begin + 1)) (fun j _ _ => rfl)).symm

theorem liveSlots_next_irrel (b : Block α) (x : Option Nat) :
    Block.liveSlots { b with next := x } = Block.liveSlots b := by
  unfold Block.liveSlots
  exact slotsFrom_congr b ({ b with next := x } : Block α) b.begin (b.«end» - b.begin)
    (fun j _ _ => rfl)

theorem liveSlots_empty (b : Block α) (h : b.«end» = b.begin) : Block.liveSlots b = [] := by
  unfold Block.liveSlots
  rw [h, Nat.sub_self]
  rfl

theorem chainList_append (blocks : List (Block α)) (xs ys : List Nat) :
    chainList blocks (xs ++ ys) = chainList blocks xs ++ chainList blocks ys := by
  induction xs with
  | nil => rfl
  | cons a r ih => simp [chainList, ih]

theorem chainList_congr (blocks blocks' : List (Block α)) (addrs : List Nat)
    (h : ∀ a ∈ addrs, (blkAt blocks' a).liveSlots = (blkAt blocks a).liveSlots) :
    chainList blocks' addrs = chainList blocks addrs := by
  induction addrs with
  | nil => rfl
  | cons a r ih =>
    simp only [chainList]
    rw [h a (by simp), ih (fun x hx => h x (by simp [hx]))]

theorem chainList_length_sumLens (blocks : List (Block α)) (addrs : List Nat) :
    (chainList blocks addrs).length = sumLens blocks addrs := by
  induction addrs with
  | nil => rfl
  | cons a r ih =>
    simp [chainList, sumLens, Block.len, Block.liveSlots, slotsFrom_length, ih]

theorem pathOk_congr (blocks blocks' : List (Block α)) (addrs : List Nat) (y : Nat)
    (h : ∀ a ∈ addrs, (blkAt blocks' a).next = (blkAt blocks a).next) :
    pathOk blocks' addrs y = pathOk blocks addrs y := by
  induction addrs with
  | nil => rfl
  | cons a r ih =>
    cases r with
    | nil => simp [pathOk, h a (by simp)]
    | cons b r2 =>
      simp only [pathOk]
      rw [h a (by simp), ih (fun x hx => h x (by simp [hx]))]

theorem chainOk_congr (blocks blocks' : List (Block α)) (addrs : List Nat)
    (h : ∀ a ∈ addrs, (blkAt blocks' a).next = (blkAt blocks a).next) :
    chainOk blocks' addrs = chainOk blocks addrs := by
  induction addrs with
  | nil => rfl
  | cons a r ih =>
    cases r with
    | nil => simp [chainOk, h a (by simp)]
    | cons b r2 =>
      simp only [chainOk]
      rw [h a (by simp), ih (fun x hx => h x (by simp [hx]))]

theorem chainOk_append_cons (blocks : List (Block α)) (xs : List Nat) (y : Nat) (ys : List Nat) :
    chainOk blocks (xs ++ y :: ys) = (pathOk blocks xs y && chainOk blocks (y :: ys)) := by
  induction xs with
  | nil => simp [pathOk]
  | cons a r ih =>
    cases r with
    | nil => simp [chainOk, pathOk]
    | cons b r2 =>
      show ((blkAt blocks a).next == some b && chainOk blocks ((b :: r2) ++ y :: ys))
        = (((blkAt blocks a).next == some b && pathOk blocks (b :: r2) y)
            && chainOk blocks (y :: ys))
      rw [ih, Bool.and_assoc]

theorem pathOk_snoc (blocks : List (Block α)) (xs : List Nat) (t y : Nat) :
    pathOk blocks (xs ++ [t]) y = (pathOk blocks xs t && ((blkAt blocks t).next == some y)) := by
  induction xs with
  | nil => simp [pathOk]
  | cons a r ih =>
    cases r with
    | nil => simp [pathOk, Bool.and_assoc]
    | cons b r2 =>
      show ((blkAt blocks a).next == some b && pathOk blocks ((b :: r2) ++ [t]) y)
        = (((blkAt blocks a).next == some b && pathOk blocks (b :: r2) t)
            && ((blkAt blocks t).next == some y))
      rw [ih, Bool.and_assoc]

theorem chainOk_snoc (blocks : List (Block α)) (xs : List Nat) (t : Nat) :
    chainOk blocks (xs ++ [t]) = (pathOk blocks xs t && ((blkAt blocks t).next == none)) := by
  have h := chainOk_append_cons blocks xs t []
  simpa [chainOk] using h

theorem head?_eq_cons {l : List Nat} {a : Nat} (h : l.head? = some a) : ∃ r, l = a :: r := by
  cases l with
  | nil => simp at h
  | cons x r =>
    simp only [List.head?_cons, Option.some.injEq] at h
    exact ⟨r, by rw [h]⟩

theorem getLast?_eq_concat {l : List Nat} {t : Nat} (h : l.getLast? = some t) :
    ∃ L, l = L ++ [t] := by
  rcases l.eq_nil_or_concat' with hnil | ⟨L, b, rfl⟩
  · subst hnil
    simp at h
  · rw [List.getLast?_concat] at h
    injection h with h
    exact ⟨L, by rw [h]⟩

theorem push_unchecked_eq_A (q : Queue α) (v : α)
    (hfull : (blkAt q.blocks q.tail).«end» + 1 ≠ BLOCK_CAP) :
    q.push_unchecked v = { q with
      blocks := q.blocks.set q.tail (pushedBlock (blkAt q.blocks q.tail) v)
      len := q.len + 1 } := by
  unfold Queue.push_unchecked
  dsimp only
  rw [if_neg (show ¬((pushedBlock (blkAt q.blocks q.tail) v).«end» = BLOCK_CAP) from hfull)]

theorem push_unchecked_eq_B1 (q : Queue α) (v : α) (ptr : Nat)
    (hfull : (blkAt q.blocks q.tail).«end» + 1 = BLOCK_CAP)
    (hnext : (blkAt q.blocks q.tail).next = some ptr) :
    q.push_unchecked v = { q with
      blocks := q.blocks.set q.tail (pushedBlock (blkAt q.blocks q.tail) v)
      len := q.len + 1
      tail := ptr } := by
  unfold Queue.push_unchecked
  dsimp only
  rw [if_pos (show (pushedBlock (blkAt q.blocks q.tail) v).«end» = BLOCK_CAP from hfull)]
  rw [show (pushedBlock (blkAt q.blocks q.tail) v).next = some ptr from hnext]

theorem push_unchecked_eq_B2 (q : Queue α) (v : α)
    (hfull : (blkAt q.blocks q.tail).«end» + 1 = BLOCK_CAP)
    (hnext : (blkAt q.blocks q.tail).next = none) :
    q.push_unchecked v = { q with
      blocks := q.blocks.set q.tail
          { pushedBlock (blkAt q.blocks q.tail) v with next := some q.blocks.length }
        ++ [Block.new]
      len := q.len + 1
      tail := q.blocks.length } := by
  unfold Queue.push_unchecked
  dsimp only
  rw [if_pos (show (pushedBlock (blkAt q.blocks q.tail) v).«end» = BLOCK_CAP from hfull)]
  rw [show (pushedBlock (blkAt q.blocks q.tail) v).next = none from hnext]
  rw [List.length_set, List.set_set]

theorem pop_unchecked_eq_A (q : Queue α) (v : α)
    (hv : (blkAt q.blocks q.head).values (blkAt q.blocks q.head).begin = some v)
    (hnb : (blkAt q.blocks q.head).begin + 1 ≠ BLOCK_CAP) :
    q.pop_unchecked = some (v, { q with
      blocks := q.blocks.set q.head
        { blkAt q.blocks q.head with begin := (blkAt q.blocks q.head).begin + 1 }
      len := q.len - 1 }) := by
  unfold Queue.pop_unchecked
  dsimp only
  rw [hv]
  dsimp only
  rw [if_neg (show ¬(({ blkAt q.blocks q.head with
    begin := (blkAt q.blocks q.head).begin + 1 } : Block α).begin = BLOCK_CAP) from hnb)]

theorem pop_unchecked_eq_B (q : Queue α) (v : α) (h2 : Nat)
    (hv : (blkAt q.blocks q.head).values (blkAt q.blocks q.head).begin = some v)
    (hb : (blkAt q.blocks q.head).begin + 1 = BLOCK_CAP)
    (hn : (blkAt q.blocks q.head).next = some h2)
    (hht : q.head ≠ q.tail) :
    q.pop_unchecked = some (v, { q with
      blocks := (q.blocks.set q.head
          { blkAt q.blocks q.head with
              next := (blkAt q.blocks q.tail).next
              begin := 0
              «end» := 0 }).set q.tail
        { blkAt q.blocks q.tail with next := some q.head }
      head := h2
      len := q.len - 1 }) := by
  unfold Queue.pop_unchecked
  dsimp only
  rw [hv]
  dsimp only
  rw [if_pos (show ({ blkAt q.blocks q.head with
    begin := (blkAt q.blocks q.head).begin + 1 } : Block α).begin = BLOCK_CAP from hb)]
  rw [show ({ blkAt q.blocks q.head with
      begin := (blkAt q.blocks q.head).begin + 1 } : Block α).next = some h2 from hn]
  unfold Block.reset
  dsimp only
  rw [blkAt_set_ne q.blocks q.head q.tail _ hht]
  rw [List.set_set]
  rw [blkAt_set_ne _ q.head q.tail _ hht]

/-- `push_unchecked` preserves the queue invariant, appends the pushed
value to the logical contents, increments `len`, and leaves `cap`
untouched. -/
theorem push_inv (q : Queue α) (v : α) (live free : List Nat) (h : QInvAt q live free) :
    ∃ live' free', QInvAt (q.push_unchecked v) live' free' ∧
      chainList (q.push_unchecked v).blocks live' = chainList q.blocks live ++ [some v] ∧
      (q.push_unchecked v).len = q.len + 1 ∧ (q.push_unchecked v).cap = q.cap := by
  obtain ⟨h1, h2, h3, h4, h5, h6, h7, h8, h9, h10, h11, h12, h13⟩ := h
  obtain ⟨L, hL⟩ := getLast?_eq_concat h2
  obtain ⟨r0, hr0⟩ := head?_eq_cons h1
  have htmem : q.tail ∈ live := by
    rw [hL]
    simp
  have hhmem : q.head ∈ live := by
    rw [hr0]
    simp
  have htlt : q.tail < q.blocks.length := h4 _ (by simp [htmem])
  have hnda := List.nodup_append.mp h3
  have htnotL : q.tail ∉ L := by
    have hLnd : (L ++ [q.tail]).Nodup := hL ▸ hnda.1
    have hx := List.nodup_append.mp hLnd
    intro hmem
    exact hx.2.2 hmem (by simp)
  have hble : (blkAt q.blocks q.tail).begin ≤ (blkAt q.blocks q.tail).«end» := by
    by_cases hht : q.tail = q.head
    · rw [hht]
      exact h10
    · rw [h9 _ htmem hht]
      exact Nat.zero_le _
  have hAt_t : blkAt (q.blocks.set q.tail (pushedBlock (blkAt q.blocks q.tail) v)) q.tail
      = pushedBlock (blkAt q.blocks q.tail) v := blkAt_set_self _ _ _ htlt
  have hAt_ne : ∀ a, a ≠ q.tail →
      blkAt (q.blocks.set q.tail (pushedBlock (blkAt q.blocks q.tail) v)) a
        = blkAt q.blocks a :=
    fun a ha => blkAt_set_ne _ _ _ _ (fun hh => ha hh.symm)
  have hlsPush := liveSlots_push (blkAt q.blocks q.tail) v hble
  have hchainL : chainList (q.blocks.set q.tail (pushedBlock (blkAt q.blocks q.tail) v)) L
      = chainList q.blocks L :=
    chainList_congr _ _ _ (fun a haL => by rw [hAt_ne a (fun he => htnotL (he ▸ haL))])
  have hchainLive :
      chainList (q.blocks.set q.tail (pushedBlock (blkAt q.blocks q.tail) v)) live
        = chainList q.blocks live ++ [some v] := by
    rw [hL, chainList_append, chainList_append, hchainL]
    simp [chainList, hAt_t, hlsPush]
  have hnexts : ∀ a ∈ live ++ free,
      (blkAt (q.blocks.set q.tail (pushedBlock (blkAt q.blocks q.tail) v)) a).next
        = (blkAt q.blocks a).next := by
    intro a _
    by_cases ha : a = q.tail
    · rw [ha, hAt_t]
      rfl
    · rw [hAt_ne a ha]
  by_cases hfull : (blkAt q.blocks q.tail).«end» + 1 = BLOCK_CAP
  · -- the tail block becomes write-full; two sub-cases on its link
    rcases free with _ | ⟨f0, fr⟩
    · -- no recycled block linked after the tail: allocate a fresh block
      rw [List.append_nil] at h3 h4 h5
      have h5' := h5
      rw [hL, chainOk_snoc, Bool.and_eq_true] at h5'
      have hnext : (blkAt q.blocks q.tail).next = none := eq_of_beq h5'.2
      have hpathL : pathOk q.blocks L q.tail = true := h5'.1
      have hpush := push_unchecked_eq_B2 q v hfull hnext
      have hAt2_t : blkAt (q.blocks.set q.tail
            { pushedBlock (blkAt q.blocks q.tail) v with next := some q.blocks.length }
          ++ [Block.new]) q.tail
          = { pushedBlock (blkAt q.blocks q.tail) v with next := some q.blocks.length } := by
        rw [blkAt_append_lt _ _ _ (by rw [List.length_set]; exact htlt)]
        exact blkAt_set_self _ _ _ htlt
      have hAt2_ne : ∀ a, a ≠ q.tail → a < q.blocks.length →
          blkAt (q.blocks.set q.tail
              { pushedBlock (blkAt q.blocks q.tail) v with next := some q.blocks.length }
            ++ [Block.new]) a = blkAt q.blocks a := by
        intro a ha hlt
        rw [blkAt_append_lt _ _ _ (by rw [List.length_set]; exact hlt)]
        exact blkAt_set_ne _ _ _ _ (fun hh => ha hh.symm)
      have hAt2_n : blkAt (q.blocks.set q.tail
            { pushedBlock (blkAt q.blocks q.tail) v with next := some q.blocks.length }
          ++ [Block.new]) q.blocks.length = Block.new := by
        have hx := blkAt_append_len (q.blocks.set q.tail
          { pushedBlock (blkAt q.blocks q.tail) v with next := some q.blocks.length })
          Block.new
        rw [List.length_set] at hx
        exact hx
      have hcl2 : chainList (q.blocks.set q.tail
          { pushedBlock (blkAt q.blocks q.tail) v with next := some q.blocks.length }
        ++ [Block.new]) live = chainList q.blocks live ++ [some v] := by
        rw [hL, chainList_append, chainList_append]
        have hclL : chainList (q.blocks.set q.tail
            { pushedBlock (blkAt q.blocks q.tail) v with next := some q.blocks.length }
          ++ [Block.new]) L = chainList q.blocks L :=
          chainList_congr _ _ _ (fun a haL => by
            rw [hAt2_ne a (fun he => htnotL (he ▸ haL)) (h4 a (by rw [hL]; simp [haL]))])
        rw [hclL]
        simp [chainList, hAt2_t, liveSlots_next_irrel, hlsPush]
      rw [hpush]
      refine ⟨live ++ [q.blocks.length], [], ?_, ?_, rfl, rfl⟩
      · refine ⟨?_, ?_, ?_, ?_, ?_, ?_, ?_, ?_, ?_, ?_, ?_, ?_, ?_⟩
        · rw [hr0]
          simp
        · exact List.getLast?_concat _
        · rw [List.append_nil]
          refine List.nodup_append.mpr ⟨h3, by simp, ?_⟩
          intro a ha hb
          simp only [List.mem_singleton] at hb
          subst hb
          exact absurd (h4 _ ha) (lt_irrefl _)
        · intro a ha
          rw [List.append_nil] at ha
          simp only [List.length_append, List.length_set, List.length_singleton]
          rcases List.mem_append.mp ha with ha | ha
          · exact Nat.lt_succ_of_lt (h4 a ha)
          · simp only [List.mem_singleton] at ha
            subst ha
            exact Nat.lt_succ_self _
        · rw [List.append_nil, chainOk_snoc]
          have hp : pathOk (q.blocks.set q.tail
              { pushedBlock (blkAt q.blocks q.tail) v with next := some q.blocks.length }
            ++ [Block.new]) L q.tail = pathOk q.blocks L q.tail := by
            refine pathOk_congr _ _ _ _ (fun a haL => ?_)
            rw [hAt2_ne a (fun he => htnotL (he ▸ haL)) (h4 a (by rw [hL]; simp [haL]))]
          rw [hL, pathOk_snoc, hp, hpathL, hAt2_t, hAt2_n]
          simp [Block.new]
        · intro a ha
          simp at ha
        · rw [hAt2_n]
          norm_num [Block.new, BLOCK_CAP]
        · intro a ha hane
          rcases List.mem_append.mp ha with ha | ha
          · by_cases hat : a = q.tail
            · rw [hat, hAt2_t]
              exact hfull
            · rw [hAt2_ne a hat (h4 a ha)]
              exact h8 a ha hat
          · simp only [List.mem_singleton] at ha
            exact absurd ha hane
        · intro a ha hane
          rcases List.mem_append.mp ha with ha | ha
          · by_cases hat : a = q.tail
            · rw [hat, hAt2_t]
              exact h9 _ htmem (hat ▸ hane)
            · rw [hAt2_ne a hat (h4 a ha)]
              exact h9 a ha hane
          · simp only [List.mem_singleton] at ha
            subst ha
            rw [hAt2_n]
            rfl
        · by_cases hht : q.head = q.tail
          · rw [hht, hAt2_t]
            show (blkAt q.blocks q.tail).begin ≤ (blkAt q.blocks q.tail).«end» + 1
            omega
          · rw [hAt2_ne q.head hht (h4 _ (by simp [hhmem]))]
            exact h10
        · by_cases hht : q.head = q.tail
          · rw [hht, hAt2_t]
            show (blkAt q.blocks q.tail).begin < BLOCK_CAP
            rw [← hht]
            exact h11
          · rw [hAt2_ne q.head hht (h4 _ (by simp [hhmem]))]
            exact h11
        · intro a ha o ho
          rcases List.mem_append.mp ha with ha | ha
          · by_cases hat : a = q.tail
            · rw [hat, hAt2_t, liveSlots_next_irrel, hlsPush] at ho
              rcases List.mem_append.mp ho with ho | ho
              · exact h12 _ htmem o ho
              · simp only [List.mem_singleton] at ho
                subst ho
                rfl
            · rw [hAt2_ne a hat (h4 a ha)] at ho
              exact h12 a ha o ho
          · simp only [List.mem_singleton] at ha
            subst ha
            rw [hAt2_n, liveSlots_empty Block.new rfl] at ho
            simp at ho
        · show q.len + 1 = _
          rw [chainList_append, hcl2]
          simp [chainList, hAt2_n, liveSlots_empty Block.new rfl, h13]
      · rw [chainList_append, hcl2]
        simp [chainList, hAt2_n, liveSlots_empty Block.new rfl]
    · -- a recycled block is already linked after the tail: advance into it
      have h5' := h5
      rw [hL, chainOk_append_cons, Bool.and_eq_true, pathOk_snoc, Bool.and_eq_true] at h5'
      have hnext : (blkAt q.blocks q.tail).next = some f0 := eq_of_beq h5'.1.2
      have hpush := push_unchecked_eq_B1 q v f0 hfull hnext
      rw [hpush]
      have hf0free : f0 ∈ f0 :: fr := by simp
      have hf0nlive : ∀ a ∈ live, a ≠ f0 := fun a ha he => hnda.2.2 (he ▸ ha) hf0free
      have hf0b := h6 f0 hf0free
      refine ⟨live ++ [f0], fr, ?_, ?_, rfl, rfl⟩
      · refine ⟨?_, ?_, ?_, ?_, ?_, ?_, ?_, ?_, ?_, ?_, ?_, ?_, ?_⟩
        · rw [hr0]
          simp
        · exact List.getLast?_concat _
        · rw [List.append_assoc]
          exact h3
        · intro a ha
          rw [List.append_assoc] at ha
          simp only [List.length_set]
          exact h4 a ha
        · have hco : chainOk (q.blocks.set q.tail (pushedBlock (blkAt q.blocks q.tail) v))
              (live ++ f0 :: fr) = chainOk q.blocks (live ++ f0 :: fr) :=
            chainOk_congr _ _ _ hnexts
          show chainOk (q.blocks.set q.tail (pushedBlock (blkAt q.blocks q.tail) v))
            ((live ++ [f0]) ++ fr) = true
          rw [List.append_assoc]
          exact hco.trans h5
        · intro a ha
          have hafree : a ∈ f0 :: fr := by simp [ha]
          have hat : a ≠ q.tail := fun he => hnda.2.2 (he ▸ htmem) hafree
          rw [hAt_ne a hat]
          exact h6 a hafree
        · have hf0t : f0 ≠ q.tail := fun he => hnda.2.2 (he ▸ htmem) hf0free
          rw [hAt_ne f0 hf0t, hf0b.2]
          norm_num [BLOCK_CAP]
        · intro a ha hane
          rcases List.mem_append.mp ha with ha | ha
          · by_cases hat : a = q.tail
            · rw [hat, hAt_t]
              exact hfull
            · rw [hAt_ne a hat]
              exact h8 a ha hat
          · simp only [List.mem_singleton] at ha
            exact absurd ha hane
        · intro a ha hane
          rcases List.mem_append.mp ha with ha | ha
          · by_cases hat : a = q.tail
            · rw [hat, hAt_t]
              exact h9 _ htmem (hat ▸ hane)
            · rw [hAt_ne a hat]
              exact h9 a ha hane
          · simp only [List.mem_singleton] at ha
            rw [ha]
            have hf0t : f0 ≠ q.tail := fun he => hnda.2.2 (he ▸ htmem) hf0free
            rw [hAt_ne f0 hf0t]
            exact hf0b.1
        · by_cases hht : q.head = q.tail
          · rw [hht, hAt_t]
            show (blkAt q.blocks q.tail).begin ≤ (blkAt q.blocks q.tail).«end» + 1
            omega
          · rw [hAt_ne q.head hht]
            exact h10
        · by_cases hht : q.head = q.tail
          · rw [hht, hAt_t]
            show (blkAt q.blocks q.tail).begin < BLOCK_CAP
            rw [← hht]
            exact h11
          · rw [hAt_ne q.head hht]
            exact h11
        · intro a ha o ho
          rcases List.mem_append.mp ha with ha | ha
          · by_cases hat : a = q.tail
            · rw [hat, hAt_t, hlsPush] at ho
              rcases List.mem_append.mp ho with ho | ho
              · exact h12 _ htmem o ho
              · simp only [List.mem_singleton] at ho
                subst ho
                rfl
            · rw [hAt_ne a hat] at ho
              exact h12 a ha o ho
          · simp only [List.mem_singleton] at ha
            rw [ha] at ho
            have hf0t : f0 ≠ q.tail := fun he => hnda.2.2 (he ▸ htmem) hf0free
            rw [hAt_ne f0 hf0t, liveSlots_empty _ (by rw [hf0b.1, hf0b.2])] at ho
            simp at ho
        · show q.len + 1 = _
          rw [chainList_append, hchainLive]
          have hf0t : f0 ≠ q.tail := fun he => hnda.2.2 (he ▸ htmem) hf0free
          simp [chainList, hAt_ne f0 hf0t, liveSlots_empty _ (by rw [hf0b.1, hf0b.2]), h13]
      · rw [chainList_append, hchainLive]
        have hf0t : f0 ≠ q.tail := fun he => hnda.2.2 (he ▸ htmem) hf0free
        simp [chainList, hAt_ne f0 hf0t, liveSlots_empty _ (by rw [hf0b.1, hf0b.2])]
  · -- the tail block still has room: only the tail block changes
    have hpush := push_unchecked_eq_A q v hfull
    rw [hpush]
    refine ⟨live, free, ?_, hchainLive, rfl, rfl⟩
    refine ⟨h1, h2, h3, ?_, ?_, ?_, ?_, ?_, ?_, ?_, ?_, ?_, ?_⟩
    · intro a ha
      simp only [List.length_set]
      exact h4 a ha
    · rw [chainOk_congr _ _ _ hnexts]
      exact h5
    · intro a ha
      have hat : a ≠ q.tail := fun he => hnda.2.2 (he ▸ htmem) ha
      rw [hAt_ne a hat]
      exact h6 a ha
    · rw [hAt_t]
      show (blkAt q.blocks q.tail).«end» + 1 < BLOCK_CAP
      omega
    · intro a ha hane
      by_cases hat : a = q.tail
      · exact absurd hat hane
      · rw [hAt_ne a hat]
        exact h8 a ha hat
    · intro a ha hane
      by_cases hat : a = q.tail
      · rw [hat, hAt_t]
        exact h9 _ htmem (hat ▸ hane)
      · rw [hAt_ne a hat]
        exact h9 a ha hane
    · by_cases hht : q.head = q.tail
      · rw [hht, hAt_t]
        show (blkAt q.blocks q.tail).begin ≤ (blkAt q.blocks q.tail).«end» + 1
        omega
      · rw [hAt_ne q.head hht]
        exact h10
    · by_cases hht : q.head = q.tail
      · rw [hht, hAt_t]
        show (blkAt q.blocks q.tail).begin < BLOCK_CAP
        rw [← hht]
        exact h11
      · rw [hAt_ne q.head hht]
        exact h11
    · intro a ha o ho
      by_cases hat : a = q.tail
      · rw [hat, hAt_t, hlsPush] at ho
        rcases List.mem_append.mp ho with ho | ho
        · exact h12 _ htmem o ho
        · simp only [List.mem_singleton] at ho
          subst ho
          rfl
      · rw [hAt_ne a hat] at ho
        exact h12 a ha o ho
    · show q.len + 1 = _
      rw [hchainLive]
      simp [h13]

theorem pathOk_cons_tail (blocks : List (Block α)) (a : Nat) (xs : List Nat) (y : Nat)
    (h : pathOk blocks (a :: xs) y = true) : pathOk blocks xs y = true := by
  cases xs with
  | nil => rfl
  | cons b r => exact ((Bool.and_eq_true _ _).mp h).2

theorem live_eq_singleton {q : Queue α} {live : List Nat} (h1 : live.head? = some q.head)
    (h2 : live.getLast? = some q.tail) (hnd : live.Nodup) (hht : q.head = q.tail) :
    live = [q.head] := by
  obtain ⟨r, hr⟩ := head?_eq_cons h1
  subst hr
  cases r with
  | nil => rfl
  | cons b r2 =>
    rw [List.getLast?_cons_cons] at h2
    obtain ⟨K, hK⟩ := getLast?_eq_concat h2
    have htailmem : q.tail ∈ b :: r2 := by
      rw [hK]
      simp
    have hnotin := (List.nodup_cons.mp hnd).1
    rw [hht] at hnotin
    exact absurd htailmem hnotin

theorem begin_lt_end_of_len_pos (q : Queue α) (live free : List Nat) (h : QInvAt q live free)
    (hl : 0 < q.len) :
    (blkAt q.blocks q.head).begin < (blkAt q.blocks q.head).«end» := by
  obtain ⟨h1, h2, h3, _, _, _, h7, h8, _, h10, h11, _, h13⟩ := h
  by_cases hht : q.head = q.tail
  · have hlive := live_eq_singleton h1 h2 (List.nodup_append.mp h3).1 hht
    rw [hlive] at h13
    simp [chainList, Block.liveSlots, slotsFrom_length] at h13
    omega
  · have hhmem : q.head ∈ live := by
      obtain ⟨r, hr⟩ := head?_eq_cons h1
      rw [hr]
      simp
    rw [h8 q.head hhmem hht]
    exact h11

theorem head_slot_some (q : Queue α) (live free : List Nat) (h : QInvAt q live free)
    (hl : 0 < q.len) :
    ∃ v, (blkAt q.blocks q.head).values (blkAt q.blocks q.head).begin = some v := by
  have hlt := begin_lt_end_of_len_pos q live free h hl
  obtain ⟨h1, _, _, _, _, _, _, _, _, _, _, h12, _⟩ := h
  have hhmem : q.head ∈ live := by
    obtain ⟨r, hr⟩ := head?_eq_cons h1
    rw [hr]
    simp
  have hmem : (blkAt q.blocks q.head).values (blkAt q.blocks q.head).begin
      ∈ (blkAt q.blocks q.head).liveSlots := by
    rw [liveSlots_pop _ hlt]
    simp
  have hs := h12 _ hhmem _ hmem
  cases hvv : (blkAt q.blocks q.head).values (blkAt q.blocks q.head).begin with
  | none =>
    rw [hvv] at hs
    simp at hs
  | some v => exact ⟨v, rfl⟩

/-- `pop_unchecked` on a non-empty queue satisfying the invariant
succeeds, preserves the invariant, removes the first element of the
logical contents, decrements `len`, and leaves `cap` untouched. -/
theorem pop_inv (q : Queue α) (live free : List Nat) (h : QInvAt q live free) (hl : 0 < q.len) :
    ∃ v q' live' free', q.pop_unchecked = some (v, q') ∧ QInvAt q' live' free' ∧
      chainList q.blocks live = some v :: chainList q'.blocks live' ∧
      q'.len = q.len - 1 ∧ q'.cap = q.cap := by
  have hlt := begin_lt_end_of_len_pos q live free h hl
  obtain ⟨v, hv⟩ := head_slot_some q live free h hl
  obtain ⟨h1, h2, h3, h4, h5, h6, h7, h8, h9, h10, h11, h12, h13⟩ := h
  obtain ⟨r, hr⟩ := head?_eq_cons h1
  subst hr
  have hhmem : q.head ∈ q.head :: r := by simp
  have hhlt : q.head < q.blocks.length := h4 _ (by simp)
  have hnda := List.nodup_append.mp h3
  have hhnotr : q.head ∉ r := (List.nodup_cons.mp hnda.1).1
  have hlsPop := liveSlots_pop (blkAt q.blocks q.head) hlt
  have he32 : (blkAt q.blocks q.head).«end» ≤ BLOCK_CAP := by
    by_cases hht : q.head = q.tail
    · rw [← hht] at h7
      omega
    · rw [h8 q.head hhmem hht]
  by_cases hb : (blkAt q.blocks q.head).begin + 1 = BLOCK_CAP
  · -- the head block drains: advance the head and recycle the block
    have hht : q.head ≠ q.tail := by
      intro heq
      rw [← heq] at h7
      omega
    have he : (blkAt q.blocks q.head).«end» = BLOCK_CAP := h8 q.head hhmem hht
    cases r with
    | nil =>
      rw [List.getLast?_singleton] at h2
      injection h2 with h2
      exact absurd h2 hht
    | cons r0 rest =>
      have hn : (blkAt q.blocks q.head).next = some r0 := by
        have hx : ((blkAt q.blocks q.head).next == some r0
            && chainOk q.blocks (r0 :: (rest ++ free))) = true := h5
        exact eq_of_beq ((Bool.and_eq_true _ _).mp hx).1
      have hpop := pop_unchecked_eq_B q v r0 hv hb hn hht
      have hgl : (r0 :: rest).getLast? = some q.tail := by
        rw [List.getLast?_cons_cons] at h2
        exact h2
      obtain ⟨M, hM⟩ := getLast?_eq_concat hgl
      have htmem : q.tail ∈ r0 :: rest := by
        rw [hM]
        simp
      have htlt : q.tail < q.blocks.length := h4 _ (by
        rcases List.mem_cons.mp htmem with hx | hx
        · simp [hx]
        · simp [hx])
      have hhne : ∀ a ∈ r0 :: rest, a ≠ q.head := fun a ha he2 => hhnotr (he2 ▸ ha)
      have hfne : ∀ a ∈ free, a ≠ q.head ∧ a ≠ q.tail := fun a ha =>
        ⟨fun he2 => hnda.2.2 (he2 ▸ hhmem) ha,
         fun he2 => hnda.2.2 (he2 ▸ (by simp [htmem] : q.tail ∈ q.head :: r0 :: rest)) ha⟩
      have htnotM : q.tail ∉ M := by
        have hnd2 : (M ++ [q.tail]).Nodup := by
          have := (List.nodup_cons.mp hnda.1).2
          rw [hM] at this
          exact this
        have hx := List.nodup_append.mp hnd2
        intro hmem
        exact hx.2.2 hmem (by simp)
      have hAt3_t : blkAt ((q.blocks.set q.head
            { blkAt q.blocks q.head with
                next := (blkAt q.blocks q.tail).next
                begin := 0
                «end» := 0 }).set q.tail
          { blkAt q.blocks q.tail with next := some q.head }) q.tail
          = { blkAt q.blocks q.tail with next := some q.head } :=
        blkAt_set_self _ _ _ (by rw [List.length_set]; exact htlt)
      have hAt3_h : blkAt ((q.blocks.set q.head
            { blkAt q.blocks q.head with
                next := (blkAt q.blocks q.tail).next
                begin := 0
                «end» := 0 }).set q.tail
          { blkAt q.blocks q.tail with next := some q.head }) q.head
          = { blkAt q.blocks q.head with
                next := (blkAt q.blocks q.tail).next
                begin := 0
                «end» := 0 } := by
        rw [blkAt_set_ne _ q.tail q.head _ (fun he2 => hht he2.symm)]
        exact blkAt_set_self _ _ _ hhlt
      have hAt3 : ∀ a, a ≠ q.head → a ≠ q.tail →
          blkAt ((q.blocks.set q.head
              { blkAt q.blocks q.head with
                  next := (blkAt q.blocks q.tail).next
                  begin := 0
                  «end» := 0 }).set q.tail
            { blkAt q.blocks q.tail with next := some q.head }) a = blkAt q.blocks a := by
        intro a ha hat
        rw [blkAt_set_ne _ q.tail a _ (fun he2 => hat he2.symm)]
        exact blkAt_set_ne _ q.head a _ (fun he2 => ha he2.symm)
      -- the original chain, regrouped around the old tail
      have h5b : (pathOk q.blocks (q.head :: M) q.tail
          && chainOk q.blocks (q.tail :: free)) = true := by
        rw [← chainOk_append_cons]
        have hx := h5
        rw [show (q.head :: r0 :: rest) ++ free = q.head :: ((r0 :: rest) ++ free) from rfl,
          hM, List.append_assoc] at hx
        exact hx
      have hparts := (Bool.and_eq_true _ _).mp h5b
      have hpathM : pathOk q.blocks M q.tail = true :=
        pathOk_cons_tail _ _ _ _ hparts.1
      -- the head block holds exactly one live value
      have hls1 : (blkAt q.blocks q.head).liveSlots = [some v] := by
        rw [hlsPop, hv]
        have hee : ({ blkAt q.blocks q.head with
            begin := (blkAt q.blocks q.head).begin + 1 } : Block α).«end»
            = ({ blkAt q.blocks q.head with
            begin := (blkAt q.blocks q.head).begin + 1 } : Block α).begin := by
          show (blkAt q.blocks q.head).«end» = (blkAt q.blocks q.head).begin + 1
          omega
        rw [liveSlots_empty _ hee]
      refine ⟨v, _, r0 :: rest, q.head :: free, hpop, ?_, ?_, rfl, rfl⟩
      · refine ⟨?_, ?_, ?_, ?_, ?_, ?_, ?_, ?_, ?_, ?_, ?_, ?_, ?_⟩
        · rfl
        · exact hgl
        · exact List.perm_middle.nodup_iff.mpr h3
        · intro a ha
          simp only [List.length_set]
          have hx := List.perm_middle.mem_iff.mp ha
          exact h4 a hx
        · rw [hM, chainOk_append_cons, pathOk_snoc]
          have hpM : pathOk ((q.blocks.set q.head
              { blkAt q.blocks q.head with
                  next := (blkAt q.blocks q.tail).next
                  begin := 0
                  «end» := 0 }).set q.tail
            { blkAt q.blocks q.tail with next := some q.head }) M q.tail
              = pathOk q.blocks M q.tail := by
            refine pathOk_congr _ _ _ _ (fun a haM => ?_)
            have haM2 : a ∈ r0 :: rest := by
              rw [hM]
              simp [haM]
            rw [hAt3 a (hhne a haM2) (fun he2 => htnotM (he2 ▸ haM))]
          rw [hpM, hpathM, hAt3_t]
          have hchainhead : chainOk ((q.blocks.set q.head
              { blkAt q.blocks q.head with
                  next := (blkAt q.blocks q.tail).next
                  begin := 0
                  «end» := 0 }).set q.tail
            { blkAt q.blocks q.tail with next := some q.head }) (q.head :: free) = true := by
            cases free with
            | nil =>
              have hx : ((blkAt q.blocks q.tail).next == none) = true := hparts.2
              show ((blkAt _ q.head).next == none) = true
              rw [hAt3_h]
              exact hx
            | cons g0 gr =>
              have hx := (Bool.and_eq_true _ _).mp hparts.2
              have hco : chainOk ((q.blocks.set q.head
                  { blkAt q.blocks q.head with
                      next := (blkAt q.blocks q.tail).next
                      begin := 0
                      «end» := 0 }).set q.tail
                { blkAt q.blocks q.tail with next := some q.head }) (g0 :: gr)
                  = chainOk q.blocks (g0 :: gr) := by
                refine chainOk_congr _ _ _ (fun a ha => ?_)
                have haf : a ∈ g0 :: gr := ha
                rw [hAt3 a (hfne a haf).1 (hfne a haf).2]
              show ((blkAt _ q.head).next == some g0 && _) = true
              rw [hAt3_h, hco]
              show ((blkAt q.blocks q.tail).next == some g0 && chainOk q.blocks (g0 :: gr)) = true
              rw [Bool.and_eq_true]
              exact ⟨hx.1, hx.2⟩
          rw [hchainhead]
          simp
        · intro a ha
          rcases List.mem_cons.mp ha with ha | ha
          · subst ha
            rw [hAt3_h]
            exact ⟨rfl, rfl⟩
          · rw [hAt3 a (hfne a ha).1 (hfne a ha).2]
            exact h6 a ha
        · rw [hAt3_t]
          exact h7
        · intro a ha hat
          rw [hAt3 a (hhne a ha) hat]
          exact h8 a (by simp [ha]) hat
        · intro a ha hane
          by_cases hat : a = q.tail
          · rw [hat, hAt3_t]
            show (blkAt q.blocks q.tail).begin = 0
            exact h9 q.tail (by simp [htmem]) (fun he2 => hht he2.symm)
          · rw [hAt3 a (hhne a ha) hat]
            exact h9 a (by simp [ha]) (hhne a ha)
        · by_cases hrt : r0 = q.tail
          · rw [show ({ blocks := _, head := r0, tail := q.tail, len := _, cap := _ } :
              Queue α).head = r0 from rfl]
            rw [hrt, hAt3_t]
            show (blkAt q.blocks q.tail).begin ≤ (blkAt q.blocks q.tail).«end»
            rw [h9 q.tail (by simp [htmem]) (fun he2 => hht he2.symm)]
            exact Nat.zero_le _
          · rw [show ({ blocks := _, head := r0, tail := q.tail, len := _, cap := _ } :
              Queue α).head = r0 from rfl]
            rw [hAt3 r0 (hhne r0 (by simp)) hrt]
            rw [h9 r0 (by simp) (hhne r0 (by simp))]
            exact Nat.zero_le _
        · by_cases hrt : r0 = q.tail
          · rw [show ({ blocks := _, head := r0, tail := q.tail, len := _, cap := _ } :
              Queue α).head = r0 from rfl]
            rw [hrt, hAt3_t]
            show (blkAt q.blocks q.tail).begin < BLOCK_CAP
            rw [h9 q.tail (by simp [htmem]) (fun he2 => hht he2.symm)]
            norm_num [BLOCK_CAP]
          · rw [show ({ blocks := _, head := r0, tail := q.tail, len := _, cap := _ } :
              Queue α).head = r0 from rfl]
            rw [hAt3 r0 (hhne r0 (by simp)) hrt]
            rw [h9 r0 (by simp) (hhne r0 (by simp))]
            norm_num [BLOCK_CAP]
        · intro a ha o ho
          by_cases hat : a = q.tail
          · rw [hat, hAt3_t, liveSlots_next_irrel] at ho
            exact h12 q.tail (by simp [htmem]) o ho
          · rw [hAt3 a (hhne a ha) hat] at ho
            exact h12 a (by simp [ha]) o ho
        · show q.len - 1 = _
          have hcl3 : chainList ((q.blocks.set q.head
              { blkAt q.blocks q.head with
                  next := (blkAt q.blocks q.tail).next
                  begin := 0
                  «end» := 0 }).set q.tail
            { blkAt q.blocks q.tail with next := some q.head }) (r0 :: rest)
              = chainList q.blocks (r0 :: rest) := by
            refine chainList_congr _ _ _ (fun a ha => ?_)
            by_cases hat : a = q.tail
            · rw [hat, hAt3_t, liveSlots_next_irrel]
            · rw [hAt3 a (hhne a ha) hat]
          rw [hcl3]
          have hx := h13
          rw [show chainList q.blocks (q.head :: r0 :: rest)
            = (blkAt q.blocks q.head).liveSlots ++ chainList q.blocks (r0 :: rest) from rfl,
            hls1] at hx
          simp at hx
          omega
      · have hcl3 : chainList ((q.blocks.set q.head
            { blkAt q.blocks q.head with
                next := (blkAt q.blocks q.tail).next
                begin := 0
                «end» := 0 }).set q.tail
          { blkAt q.blocks q.tail with next := some q.head }) (r0 :: rest)
            = chainList q.blocks (r0 :: rest) := by
          refine chainList_congr _ _ _ (fun a ha => ?_)
          by_cases hat : a = q.tail
          · rw [hat, hAt3_t, liveSlots_next_irrel]
          · rw [hAt3 a (hhne a ha) hat]
        rw [hcl3]
        rw [show chainList q.blocks (q.head :: r0 :: rest)
          = (blkAt q.blocks q.head).liveSlots ++ chainList q.blocks (r0 :: rest) from rfl,
          hls1]
        rfl
  · -- the head block is not drained: only its `begin` cursor moves
    have hpop := pop_unchecked_eq_A q v hv hb
    have hAt_h : blkAt (q.blocks.set q.head
        { blkAt q.blocks q.head with begin := (blkAt q.blocks q.head).begin + 1 }) q.head
        = { blkAt q.blocks q.head with begin := (blkAt q.blocks q.head).begin + 1 } :=
      blkAt_set_self _ _ _ hhlt
    have hAt_ne : ∀ a, a ≠ q.head → blkAt (q.blocks.set q.head
        { blkAt q.blocks q.head with begin := (blkAt q.blocks q.head).begin + 1 }) a
        = blkAt q.blocks a :=
      fun a ha => blkAt_set_ne _ _ _ _ (fun hh => ha hh.symm)
    have hclr : chainList (q.blocks.set q.head
        { blkAt q.blocks q.head with begin := (blkAt q.blocks q.head).begin + 1 }) r
        = chainList q.blocks r :=
      chainList_congr _ _ _ (fun a ha => by rw [hAt_ne a (fun he2 => hhnotr (he2 ▸ ha))])
    have hchain : chainList q.blocks (q.head :: r)
        = some v :: chainList (q.blocks.set q.head
            { blkAt q.blocks q.head with begin := (blkAt q.blocks q.head).begin + 1 })
          (q.head :: r) := by
      rw [show chainList q.blocks (q.head :: r)
        = (blkAt q.blocks q.head).liveSlots ++ chainList q.blocks r from rfl]
      rw [show chainList (q.blocks.set q.head
          { blkAt q.blocks q.head with begin := (blkAt q.blocks q.head).begin + 1 })
          (q.head :: r)
        = (blkAt (q.blocks.set q.head
            { blkAt q.blocks q.head with begin := (blkAt q.blocks q.head).begin + 1 })
            q.head).liveSlots
          ++ chainList (q.blocks.set q.head
            { blkAt q.blocks q.head with begin := (blkAt q.blocks q.head).begin + 1 }) r
        from rfl]
      rw [hAt_h, hclr, hlsPop, hv]
      rfl
    refine ⟨v, _, q.head :: r, free, hpop, ?_, hchain, rfl, rfl⟩
    refine ⟨h1, h2, h3, ?_, ?_, ?_, ?_, ?_, ?_, ?_, ?_, ?_, ?_⟩
    · intro a ha
      simp only [List.length_set]
      exact h4 a ha
    · refine Eq.trans (chainOk_congr q.blocks (q.blocks.set q.head
        { blkAt q.blocks q.head with begin := (blkAt q.blocks q.head).begin + 1 })
        (q.head :: r ++ free) (fun a _ => ?_)) h5
      by_cases ha : a = q.head
      · rw [ha, hAt_h]
      · rw [hAt_ne a ha]
    · intro a ha
      rw [hAt_ne a (fun he2 => hnda.2.2 (he2 ▸ hhmem) ha)]
      exact h6 a ha
    · by_cases hth : q.tail = q.head
      · rw [hth, hAt_h]
        show (blkAt q.blocks q.head).«end» < BLOCK_CAP
        rw [← hth]
        exact h7
      · rw [hAt_ne q.tail hth]
        exact h7
    · intro a ha hat
      by_cases hah : a = q.head
      · rw [hah, hAt_h]
        show (blkAt q.blocks q.head).«end» = BLOCK_CAP
        exact h8 q.head hhmem (hah ▸ hat)
      · rw [hAt_ne a hah]
        exact h8 a ha hat
    · intro a ha hane
      rw [hAt_ne a hane]
      exact h9 a ha hane
    · rw [hAt_h]
      show (blkAt q.blocks q.head).begin + 1 ≤ (blkAt q.blocks q.head).«end»
      omega
    · rw [hAt_h]
      show (blkAt q.blocks q.head).begin + 1 < BLOCK_CAP
      omega
    · intro a ha o ho
      by_cases hah : a = q.head
      · rw [hah, hAt_h] at ho
        have : o ∈ (blkAt q.blocks q.head).liveSlots := by
          rw [hlsPop]
          simp [ho]
        exact h12 q.head hhmem o this
      · rw [hAt_ne a hah] at ho
        exact h12 a ha o ho
    · show q.len - 1 = (chainList (q.blocks.set q.head
        { blkAt q.blocks q.head with begin := (blkAt q.blocks q.head).begin + 1 })
        (q.head :: r)).length
      have hx := h13
      rw [hchain, List.length_cons] at hx
      omega

theorem qinv_new (c : Option Nat) : QInvAt (Queue.new (α := α) c) [0] [] := by
  refine ⟨rfl, rfl, by simp, ?_, ?_, ?_, ?_, ?_, ?_, ?_, ?_, ?_, ?_⟩
  · intro a ha
    simp at ha
    subst ha
    show 0 < 1
    decide
  · rfl
  · intro a ha
    simp at ha
  · show 0 < BLOCK_CAP
    decide
  · intro a ha hane
    simp at ha
    exact absurd ha hane
  · intro a ha hane
    simp at ha
    exact absurd ha hane
  · exact Nat.le_refl 0
  · show 0 < BLOCK_CAP
    decide
  · intro a ha o ho
    simp at ha
    subst ha
    rw [show blkAt (Queue.new (α := α) c).blocks 0 = Block.new from rfl,
      liveSlots_empty Block.new rfl] at ho
    simp at ho
  · rfl

theorem pushAll_repr (ws : List α) : ∀ (q : Queue α) (vs : List (Option α))
    (live free : List Nat), QInvAt q live free → chainList q.blocks live = vs →
    ∃ live' free', QInvAt (pushAll q ws) live' free' ∧
      chainList (pushAll q ws).blocks live' = vs ++ ws.map some ∧
      (pushAll q ws).len = q.len + ws.length ∧ (pushAll q ws).cap = q.cap := by
  induction ws with
  | nil =>
    intro q vs live free hinv hch
    exact ⟨live, free, hinv, by simp [pushAll, hch], by simp [pushAll], rfl⟩
  | cons w ws ih =>
    intro q vs live free hinv hch
    obtain ⟨l1, f1, hinv1, hch1, hlen1, hcap1⟩ := push_inv q w live free hinv
    obtain ⟨l2, f2, hinv2, hch2, hlen2, hcap2⟩ :=
      ih (q.push_unchecked w) (vs ++ [some w]) l1 f1 hinv1 (by rw [hch1, hch])
    refine ⟨l2, f2, hinv2, ?_, ?_, ?_⟩
    · rw [show pushAll q (w :: ws) = pushAll (q.push_unchecked w) ws from rfl, hch2]
      simp
    · rw [show pushAll q (w :: ws) = pushAll (q.push_unchecked w) ws from rfl, hlen2, hlen1]
      simp only [List.length_cons]
      omega
    · rw [show pushAll q (w :: ws) = pushAll (q.push_unchecked w) ws from rfl, hcap2, hcap1]

theorem popN_repr : ∀ (k : Nat) (q : Queue α) (ws : List α) (live free : List Nat),
    QInvAt q live free → chainList q.blocks live = ws.map some → k ≤ ws.length →
    ∃ qk live' free', popN q k = some (ws.take k, qk) ∧ QInvAt qk live' free' ∧
      chainList qk.blocks live' = (ws.drop k).map some ∧ qk.len = ws.length - k ∧
      qk.cap = q.cap := by
  intro k
  induction k with
  | zero =>
    intro q ws live free hinv hch hk
    obtain ⟨_, _, _, _, _, _, _, _, _, _, _, _, h13⟩ := hinv
    refine ⟨q, live, free, rfl, ?_, by simp [hch], ?_, rfl⟩
    · exact ⟨by assumption, by assumption, by assumption, by assumption, by assumption,
        by assumption, by assumption, by assumption, by assumption, by assumption,
        by assumption, by assumption, h13⟩
    · rw [h13, hch]
      simp
  | succ k ih =>
    intro q ws live free hinv hch hk
    cases ws with
    | nil => simp at hk
    | cons w ws2 =>
      have hlenq : q.len = ws2.length + 1 := by
        obtain ⟨_, _, _, _, _, _, _, _, _, _, _, _, h13⟩ := hinv
        rw [h13, hch]
        simp
      have hl : 0 < q.len := by omega
      obtain ⟨v, q', live', free', hpop, hinv', hch', hlen', hcap'⟩ :=
        pop_inv q live free hinv hl
      rw [hch] at hch'
      simp only [List.map_cons, List.cons.injEq, Option.some.injEq] at hch'
      obtain ⟨hvw, hch2'⟩ := hch'
      obtain ⟨qk, l2, f2, hpopN, hinv2, hch2, hlen2, hcap2⟩ :=
        ih q' ws2 live' free' hinv' hch2'.symm (by simpa using hk)
      refine ⟨qk, l2, f2, ?_, hinv2, hch2, ?_, ?_⟩
      · show popN q (k + 1) = _
        rw [show popN q (k + 1) = (match q.pop_unchecked with
          | some (v, q1) => (match popN q1 k with
            | some (l, q2) => some (v :: l, q2)
            | none => none)
          | none => none) from rfl, hpop]
        show (match popN q' k with
          | some (l, q2) => some (v :: l, q2)
          | none => none) = _
        rw [hpopN]
        show some (v :: ws2.take k, qk) = some ((w :: ws2).take (k + 1), qk)
        rw [← hvw]
        rfl
      · rw [hlen2]
        simp only [List.length_cons]
        omega
      · rw [hcap2, hcap']

theorem runOps_post (ops : List (QOp α)) : ∀ (q : Queue α),
    (∃ live free, QInvAt q live free) → (q.cap ≠ 0 → q.len ≤ q.cap) →
    C7Post (runOps q ops) := by
  induction ops with
  | nil =>
    intro q hinv hcap
    obtain ⟨live, free, hi⟩ := hinv
    show C7Post (some q)
    refine ⟨live, free, hi, ?_, hcap⟩
    obtain ⟨_, _, _, _, _, _, _, _, _, _, _, _, h13⟩ := hi
    rw [h13, chainList_length_sumLens]
  | cons op ops ih =>
    intro q hinv hcap
    obtain ⟨live, free, hi⟩ := hinv
    cases op with
    | push v =>
      by_cases hg : q.cap = 0 ∨ q.len < q.cap
      · have hstep : stepOp q (QOp.push v) = some (q.push_unchecked v) := by
          unfold stepOp
          dsimp only
          rw [if_pos hg]
        rw [show runOps q (QOp.push v :: ops) = (match stepOp q (QOp.push v) with
          | some q1 => runOps q1 ops
          | none => none) from rfl, hstep]
        obtain ⟨l1, f1, hinv1, _, hlen1, hcap1⟩ := push_inv q v live free hi
        refine ih _ ⟨l1, f1, hinv1⟩ ?_
        rw [hlen1, hcap1]
        intro hc0
        rcases hg with hg | hg
        · exact absurd hg hc0
        · omega
      · have hstep : stepOp q (QOp.push v) = none := by
          unfold stepOp
          dsimp only
          rw [if_neg hg]
        rw [show runOps q (QOp.push v :: ops) = (match stepOp q (QOp.push v) with
          | some q1 => runOps q1 ops
          | none => none) from rfl, hstep]
        trivial
    | pop =>
      by_cases hg : 0 < q.len
      · obtain ⟨v, q', l1, f1, hpop, hinv1, _, hlen1, hcap1⟩ := pop_inv q live free hi hg
        have hstep : stepOp q QOp.pop = some q' := by
          unfold stepOp
          dsimp only
          rw [if_pos hg, hpop]
          rfl
        rw [show runOps q (QOp.pop :: ops) = (match stepOp q QOp.pop with
          | some q1 => runOps q1 ops
          | none => none) from rfl, hstep]
        refine ih _ ⟨l1, f1, hinv1⟩ ?_
        rw [hlen1, hcap1]
        intro hc0
        have := hcap hc0
        omega
      · have hstep : stepOp q QOp.pop = none := by
          unfold stepOp
          dsimp only
          rw [if_neg hg]
        rw [show runOps q (QOp.pop :: ops) = (match stepOp q QOp.pop with
          | some q1 => runOps q1 ops
          | none => none) from rfl, hstep]
        trivial

/-- The structural content of the recycling `pop`: on a non-empty queue
whose head block is about to drain, the head block has a successor (the
`expect` cannot fail), the head advances to it, and the drained block is
reset and relinked immediately after the current tail. -/
theorem pop_drained_head_recycled (q : Queue α) (live free : List Nat) (h : QInvAt q live free)
    (hl : 0 < q.len) (hb : (blkAt q.blocks q.head).begin + 1 = BLOCK_CAP) :
    ∃ v q' nxt, (blkAt q.blocks q.head).next = some nxt ∧
      q.pop_unchecked = some (v, q') ∧
      q'.head = nxt ∧ q'.tail = q.tail ∧
      (blkAt q'.blocks q.head).begin = 0 ∧ (blkAt q'.blocks q.head).«end» = 0 ∧
      (blkAt q'.blocks q.head).next = (blkAt q.blocks q.tail).next ∧
      (blkAt q'.blocks q.tail).next = some q.head := by
  have hlt := begin_lt_end_of_len_pos q live free h hl
  obtain ⟨v, hv⟩ := head_slot_some q live free h hl
  obtain ⟨h1, h2, h3, h4, h5, h6, h7, h8, h9, h10, h11, h12, h13⟩ := h
  have hht : q.head ≠ q.tail := by
    intro heq
    rw [← heq] at h7
    omega
  obtain ⟨r, hr⟩ := head?_eq_cons h1
  subst hr
  have hhlt : q.head < q.blocks.length := h4 _ (by simp)
  cases r with
  | nil =>
    rw [List.getLast?_singleton] at h2
    injection h2 with h2
    exact absurd h2 hht
  | cons r0 rest =>
    have hn : (blkAt q.blocks q.head).next = some r0 := by
      have hx : ((blkAt q.blocks q.head).next == some r0
          && chainOk q.blocks (r0 :: (rest ++ free))) = true := h5
      exact eq_of_beq ((Bool.and_eq_true _ _).mp hx).1
    have hgl : (r0 :: rest).getLast? = some q.tail := by
      rw [List.getLast?_cons_cons] at h2
      exact h2
    obtain ⟨M, hM⟩ := getLast?_eq_concat hgl
    have htmem : q.tail ∈ r0 :: rest := by
      rw [hM]
      simp
    have htlt : q.tail < q.blocks.length := h4 _ (by
      rcases List.mem_cons.mp htmem with hx | hx
      · simp [hx]
      · simp [hx])
    have hAt3_t : blkAt ((q.blocks.set q.head
          { blkAt q.blocks q.head with
              next := (blkAt q.blocks q.tail).next
              begin := 0
              «end» := 0 }).set q.tail
        { blkAt q.blocks q.tail with next := some q.head }) q.tail
        = { blkAt q.blocks q.tail with next := some q.head } :=
      blkAt_set_self _ _ _ (by rw [List.length_set]; exact htlt)
    have hAt3_h : blkAt ((q.blocks.set q.head
          { blkAt q.blocks q.head with
              next := (blkAt q.blocks q.tail).next
              begin := 0
              «end» := 0 }).set q.tail
        { blkAt q.blocks q.tail with next := some q.head }) q.head
        = { blkAt q.blocks q.head with
              next := (blkAt q.blocks q.tail).next
              begin := 0
              «end» := 0 } := by
      rw [blkAt_set_ne _ q.tail q.head _ (fun he2 => hht he2.symm)]
      exact blkAt_set_self _ _ _ hhlt
    have hpop := pop_unchecked_eq_B q v r0 hv hb hn hht
    refine ⟨v, _, r0, hn, hpop, rfl, rfl, ?_, ?_, ?_, ?_⟩
    · show (blkAt ((q.blocks.set q.head
          { blkAt q.blocks q.head with
              next := (blkAt q.blocks q.tail).next
              begin := 0
              «end» := 0 }).set q.tail
        { blkAt q.blocks q.tail with next := some q.head }) q.head).begin = 0
      rw [hAt3_h]
    · show (blkAt ((q.blocks.set q.head
          { blkAt q.blocks q.head with
              next := (blkAt q.blocks q.tail).next
              begin := 0
              «end» := 0 }).set q.tail
        { blkAt q.blocks q.tail with next := some q.head }) q.head).«end» = 0
      rw [hAt3_h]
    · show (blkAt ((q.blocks.set q.head
          { blkAt q.blocks q.head with
              next := (blkAt q.blocks q.tail).next
              begin := 0
              «end» := 0 }).set q.tail
        { blkAt q.blocks q.tail with next := some q.head }) q.head).next
        = (blkAt q.blocks q.tail).next
      rw [hAt3_h]
    · show (blkAt ((q.blocks.set q.head
          { blkAt q.blocks q.head with
              next := (blkAt q.blocks q.tail).next
              begin := 0
              «end» := 0 }).set q.tail
        { blkAt q.blocks q.tail with next := some q.head }) q.tail).next = some q.head
      rw [hAt3_t]

end Mpsc

namespace Claims

open Mpsc Oneshot

/-- C2: evaluating `Queue::is_full` at its own documented cases:
for the unbounded queue (`cap == 0`) it returns `true` — although the
claim, and the function's own doc comment, say it must be `false` — and
for a bounded queue at capacity (`len == cap`) it returns `false`,
although the claim says it must be `true`.  The body computes
`cap == 0 || len < cap`, the "has room" predicate, not "is full". -/
theorem c2_is_full_contradicts_doc :
    (Queue.new (α := Nat) none).is_full = true ∧
    ({ blocks := [Block.new], head := 0, tail := 0, len := 3, cap := 3 } : Queue Nat).is_full
      = false := by
  exact ⟨rfl, rfl⟩

/-- C4: evaluating teardown on an unbounded queue holding one live
unconsumed value (42, pushed and never popped).  `free_blocks` walks the
single block exactly once (visit order `[0]`), slot 0 of that block still
holds the live value with cursors `begin = 0`, `end = 1`, yet the list of
values whose destructor runs during teardown is empty: the
`MaybeUninit` slots are deallocated without dropping the live value,
contradicting the claim that every live value is dropped exactly once. -/
theorem c4_teardown_leaks_live_value :
    ((Queue.new (α := Nat) none).push_unchecked 42).free_blocks_order = [0] ∧
    (blkAt ((Queue.new (α := Nat) none).push_unchecked 42).blocks 0).values 0 = some 42 ∧
    (blkAt ((Queue.new (α := Nat) none).push_unchecked 42).blocks 0).begin = 0 ∧
    (blkAt ((Queue.new (α := Nat) none).push_unchecked 42).blocks 0).«end» = 1 ∧
    ((Queue.new (α := Nat) none).push_unchecked 42).free_blocks_dropped = [] := by
  exact ⟨rfl, rfl, rfl, rfl, rfl⟩

/-- C3: if the receiver has closed the channel — by `close()` or by being
dropped — before the sender sends, then `send(x)` fails with exactly `x`
as the error payload, wakes nobody, and leaves the value cell empty. -/
theorem c3_send_after_close (c : Chan α) (x : α)
    (h16 : c.inner.state < 16) (htx : c.txAlive = true) (hrx : c.rxAlive = true) :
    (∃ c2 : Chan α, (Chan.close c).1.send x = some (Except.error x, c2, []) ∧
      c2.inner.value = none) ∧
    (∃ c2 : Chan α, (Chan.dropReceiver c).1.send x = some (Except.error x, c2, []) ∧
      c2.inner.value = none) := by
  constructor
  · refine ⟨⟨{ c.inner with value := none, state := c.inner.state ||| CLOSED ||| VALUE_SENT }, false, true⟩, ?_, rfl⟩
    rw [chan_close_fst c hrx]
    exact send_closed_eq _ x htx ((closed_bit_lemmas c.inner.state h16).1)
  · refine ⟨⟨{ c.inner with value := none, state := c.inner.state ||| CLOSED ||| VALUE_SENT }, false, false⟩, ?_, rfl⟩
    rw [chan_dropReceiver_fst c hrx]
    exact send_closed_eq _ x htx ((closed_bit_lemmas c.inner.state h16).1)

/-- C3 witness: a fresh channel, closed by the receiver, then `send 5`. -/
theorem c3_witness :
    (∃ c2 : Chan Nat, (Chan.close channel).1.send 5 = some (Except.error 5, c2, []) ∧
      c2.inner.value = none) ∧
    (∃ c2 : Chan Nat, (Chan.dropReceiver channel).1.send 5 = some (Except.error 5, c2, []) ∧
      c2.inner.value = none) :=
  c3_send_after_close channel 5 (by decide) rfl rfl

/-- C5: if the sender is dropped without having sent (its reference is
still held and the value cell is empty), then: a receiver waker that was
registered on a not-yet-closed channel is woken by the drop, and any
subsequent poll of the receiver resolves to `Ready(Err(RecvError))`
rather than hanging. -/
theorem c5_sender_drop_resolves (c : Chan α)
    (h16 : c.inner.state < 16) (htx : c.txAlive = true) (hrx : c.rxAlive = true)
    (hval : c.inner.value = none) :
    (is_closed c.inner.state = false → is_rx_task_set c.inner.state = true →
      (Chan.dropSender c).2 = wakeList c.inner.rx_task) ∧
    ∀ w', ∃ c2 : Chan α,
      (Chan.dropSender c).1.recvPoll w' = some (Poll.Ready (Except.error RecvError.mk), c2) := by
  constructor
  · intro h1 h2
    exact dropSender_snd c htx h1 h2
  · intro w'
    refine ⟨⟨{ c.inner with state := c.inner.state ||| VALUE_SENT }, false, true⟩, ?_⟩
    rw [dropSender_fst c htx]
    exact recvPoll_err _ w' hrx ((sent_bit_lemmas c.inner.state h16).1) hval

/-- C5 witness: a channel whose receiver has registered waker 9 and whose
sender is then dropped: the drop wakes task 9 and polling resolves to the
closed error. -/
theorem c5_witness :
    (is_closed (1 : Nat) = false → is_rx_task_set (1 : Nat) = true →
      (Chan.dropSender (⟨⟨1, none, none, some 9⟩, true, true⟩ : Chan Nat)).2
        = wakeList (some 9)) ∧
    ∀ w', ∃ c2 : Chan Nat,
      (Chan.dropSender (⟨⟨1, none, none, some 9⟩, true, true⟩ : Chan Nat)).1.recvPoll w'
        = some (Poll.Ready (Except.error RecvError.mk), c2) :=
  c5_sender_drop_resolves (⟨⟨1, none, none, some 9⟩, true, true⟩ : Chan Nat)
    (by decide) rfl rfl rfl

/-- C6: `try_recv` before any send (not complete, not closed) reports
`Empty` and leaves the channel — in particular the waker slots —
completely untouched; when complete with the value still present it
returns the value; when complete with the value gone, or closed without
being complete, it reports `Closed`. -/
theorem c6_try_recv_cases (c : Chan α) (hrx : c.rxAlive = true) :
    (is_complete c.inner.state = false → is_closed c.inner.state = false →
      c.try_recv = (Except.error TryRecvError.Empty, c)) ∧
    (∀ x, is_complete c.inner.state = true → c.inner.value = some x →
      c.try_recv = (Except.ok x, ⟨{ c.inner with value := none }, c.txAlive, false⟩)) ∧
    (is_complete c.inner.state = true → c.inner.value = none →
      c.try_recv = (Except.error TryRecvError.Closed, ⟨c.inner, c.txAlive, false⟩)) ∧
    (is_complete c.inner.state = false → is_closed c.inner.state = true →
      c.try_recv = (Except.error TryRecvError.Closed, ⟨c.inner, c.txAlive, false⟩)) := by
  unfold Chan.try_recv
  rw [hrx]
  refine ⟨?_, ?_, ?_, ?_⟩
  · intro h1 h2
    simp [h1, h2]
  · intro x h1 h2
    simp [h1, h2]
  · intro h1 h2
    simp [h1, h2]
  · intro h1 h2
    simp [h1, h2]

/-- C6 witness: a fresh channel reports `Empty` unchanged, and after a
completed send of 7 it reports the value. -/
theorem c6_witness :
    ((channel : Chan Nat).try_recv = (Except.error TryRecvError.Empty, channel)) ∧
    ((⟨⟨2, some 7, none, none⟩, false, true⟩ : Chan Nat).try_recv
      = (Except.ok 7, ⟨⟨2, none, none, none⟩, false, false⟩)) :=
  ⟨(c6_try_recv_cases (channel : Chan Nat) rfl).1 rfl rfl,
    (c6_try_recv_cases (⟨⟨2, some 7, none, none⟩, false, true⟩ : Chan Nat) rfl).2.1 7 rfl rfl⟩

/-- C9 (amended): after `poll_closed` returned `Pending`, the most
recently supplied waker is the one stored in the `tx_task` slot; if the
channel is not complete, a `Receiver::close()` or a receiver drop wakes
exactly that waker — and, contrary to the original claim, a repeated
close on the (now already closed, still not complete) channel wakes it
again; if the channel is complete, close wakes nobody. -/
theorem c9_close_wakes_latest (i : Inner α) (w : Nat) (i1 : Inner α)
    (h16 : i.state < 16) (hp : Inner.poll_closed i w = (Poll.Pending, i1)) :
    i1.tx_task = some w ∧ is_tx_task_set i1.state = true ∧
    (is_complete i1.state = false →
      (Inner.close i1).2 = [w] ∧
      (Chan.dropReceiver ⟨i1, true, true⟩).2 = [w] ∧
      (Inner.close (Inner.close i1).1).2 = [w]) ∧
    (is_complete i1.state = true → (Inner.close i1).2 = []) := by
  obtain ⟨ht, hb, hcl, _, h16b⟩ := poll_closed_pending i w i1 h16 hp
  refine ⟨ht, hb, ?_, close_no_wake_complete i1⟩
  intro hnc
  have hfirst := close_wakes_tx i1 w ht hb hnc
  have hcl2 := closed_bit_lemmas i1.state h16b
  refine ⟨hfirst, ?_, ?_⟩
  · rcases hcE : Inner.close i1 with ⟨ia, wa⟩
    have hw : wa = [w] := by
      rw [hcE] at hfirst
      exact hfirst
    unfold Chan.dropReceiver
    simp [hcE, hw]
  · rw [close_fst]
    refine close_wakes_tx _ w ht ?_ ?_
    · rw [hcl2.2.1]
      exact hb
    · rw [hcl2.2.2.1]
      exact hnc

/-- C9 witness: fresh channel, `poll_closed` with waker 7 returns Pending
and registers it; the subsequent close wakes exactly task 7. -/
theorem c9_witness :
    (⟨8, none, some 7, none⟩ : Inner Nat).tx_task = some 7 ∧
    is_tx_task_set (⟨8, none, some 7, none⟩ : Inner Nat).state = true ∧
    (is_complete (⟨8, none, some 7, none⟩ : Inner Nat).state = false →
      (Inner.close (⟨8, none, some 7, none⟩ : Inner Nat)).2 = [7] ∧
      (Chan.dropReceiver ⟨(⟨8, none, some 7, none⟩ : Inner Nat), true, true⟩).2 = [7] ∧
      (Inner.close (Inner.close (⟨8, none, some 7, none⟩ : Inner Nat)).1).2 = [7]) ∧
    (is_complete (⟨8, none, some 7, none⟩ : Inner Nat).state = true →
      (Inner.close (⟨8, none, some 7, none⟩ : Inner Nat)).2 = []) :=
  c9_close_wakes_latest (⟨0, none, none, none⟩ : Inner Nat) 7 ⟨8, none, some 7, none⟩
    (by decide) rfl

/-- C9 counterexample to the claim as stated: on a fresh channel,
`poll_closed` with waker 7 reports Pending; the first close wakes task 7;
the channel is then already closed and not complete, and a second close
wakes task 7 AGAIN — `close` is not idempotent in its waking effect. -/
theorem c9_second_close_wakes_again :
    (Inner.poll_closed (⟨0, none, none, none⟩ : Inner Nat) 7).1 = Poll.Pending ∧
    (Inner.close (Inner.poll_closed (⟨0, none, none, none⟩ : Inner Nat) 7).2).2 = [7] ∧
    is_closed (Inner.close (Inner.poll_closed (⟨0, none, none, none⟩ : Inner Nat) 7).2).1.state
      = true ∧
    is_complete (Inner.close (Inner.poll_closed (⟨0, none, none, none⟩ : Inner Nat) 7).2).1.state
      = false ∧
    (Inner.close
      (Inner.close (Inner.poll_closed (⟨0, none, none, none⟩ : Inner Nat) 7).2).1).2 = [7] := by
  exact ⟨rfl, rfl, rfl, rfl, rfl⟩

/-- C10 (amended): when polling the receiver as a future returns
`Ready(Ok(v))`, the inner reference is cleared and every subsequent poll
panics (modelled as `none`). -/
theorem c10_poll_after_ok_panics (c : Chan α) (w : Nat) (v : α) (c2 : Chan α)
    (h : c.recvPoll w = some (Poll.Ready (Except.ok v), c2)) :
    c2.rxAlive = false ∧ ∀ w', c2.recvPoll w' = none := by
  unfold Chan.recvPoll at h
  rcases hrx : c.rxAlive with _ | _
  · rw [hrx] at h
    simp at h
  · rw [hrx] at h
    simp only [if_true] at h
    rcases hpr : Inner.poll_recv c.inner w with ⟨p, i1⟩
    rw [hpr] at h
    match p, h with
    | Poll.Ready (Except.ok v'), h =>
      simp only [Option.some.injEq, Prod.mk.injEq, Poll.Ready.injEq, Except.ok.injEq] at h
      obtain ⟨_, hc2⟩ := h
      rw [← hc2]
      refine ⟨rfl, ?_⟩
      intro w'
      unfold Chan.recvPoll
      simp

/-- C10 witness: a channel holding a sent value 5: polling yields
`Ready(Ok 5)` and clears the reference; afterwards every poll panics. -/
theorem c10_witness :
    (⟨⟨2, none, none, none⟩, false, false⟩ : Chan Nat).rxAlive = false ∧
    ∀ w', (⟨⟨2, none, none, none⟩, false, false⟩ : Chan Nat).recvPoll w' = none :=
  c10_poll_after_ok_panics (⟨⟨2, some 5, none, none⟩, false, true⟩ : Chan Nat) 0 5
    (⟨⟨2, none, none, none⟩, false, false⟩ : Chan Nat) rfl

/-- C10 counterexample to the claim as stated: after the sender is
dropped without sending, polling the receiver returns `Ready(Err(..))` —
but the inner reference is NOT cleared (the `?` early-return skips
`self.inner = None`), and a subsequent poll of the same receiver returns
`Ready(Err(..))` again instead of panicking. -/
theorem c10_ready_err_keeps_inner :
    (Chan.recvPoll ((Chan.dropSender (channel (α := Nat))).1) 3
      = some (Poll.Ready (Except.error RecvError.mk), (Chan.dropSender (channel (α := Nat))).1)) ∧
    ((Chan.dropSender (channel (α := Nat))).1).rxAlive = true ∧
    (Chan.recvPoll ((Chan.dropSender (channel (α := Nat))).1) 4).isSome = true := by
  refine ⟨rfl, rfl, rfl⟩

/-- C1: starting from the unbounded queue, pushing the values of `vs`
and then popping them back returns them in FIFO order, and `len` tracks
the running count of live values after every push (prefix of length `i`)
and after every pop (first `k` pops). -/
theorem c1_fifo_and_len (vs : List α) (i k : Nat) (hi : i ≤ vs.length) (hk : k ≤ vs.length) :
    (pushAll (Queue.new none) (vs.take i)).len = i ∧
    ∃ qk, popN (pushAll (Queue.new none) vs) k = some (vs.take k, qk) ∧
      qk.len = vs.length - k := by
  have hnew := qinv_new (α := α) none
  have hchnew : chainList (Queue.new (α := α) none).blocks [0] = [] := rfl
  constructor
  · obtain ⟨l1, f1, _, _, hlen, _⟩ :=
      pushAll_repr (vs.take i) (Queue.new none) [] [0] [] hnew hchnew
    rw [hlen]
    show 0 + (vs.take i).length = i
    rw [List.length_take]
    omega
  · obtain ⟨l1, f1, hinv1, hch1, _, _⟩ :=
      pushAll_repr vs (Queue.new none) [] [0] [] hnew hchnew
    have hch1' : chainList (pushAll (Queue.new (α := α) none) vs).blocks l1
        = vs.map some := by
      rw [hch1]
      simp
    obtain ⟨qk, l2, f2, hpopN, _, _, hlenk, _⟩ :=
      popN_repr k (pushAll (Queue.new none) vs) vs l1 f1 hinv1 hch1' hk
    exact ⟨qk, hpopN, hlenk⟩

/-- C1 witness: push 10, 20, 30 and pop twice. -/
theorem c1_witness :
    (pushAll (Queue.new none) ([10, 20, 30].take 2)).len = 2 ∧
    ∃ qk, popN (pushAll (Queue.new (α := Nat) none) [10, 20, 30]) 2
      = some ([10, 20, 30].take 2, qk) ∧ qk.len = 3 - 2 :=
  c1_fifo_and_len [10, 20, 30] 2 2 (by decide) (by decide)

/-- C7: any operation sequence executed under the caller-checked
discipline (push only when `cap == 0` or `len < cap`, pop only when
non-empty), starting from a fresh queue of any capacity, leaves the
queue satisfying the structural invariant with
`len = Σ (end - begin)` over the head→tail chain and `len ≤ cap`
whenever `cap ≠ 0`; since every prefix of a run is itself a run, this
holds after each operation. -/
theorem c7_invariant_all_ops (cap : Option Nat) (ops : List (QOp α)) :
    C7Post (runOps (Queue.new cap) ops) :=
  runOps_post ops _ ⟨[0], [], qinv_new cap⟩ (fun _ => Nat.zero_le _)

/-- C8: on a non-empty queue satisfying the invariant whose head block's
`begin` cursor reaches `BLOCK_CAP` on this pop, the head block has a
successor — the `expect("internal error")` lookup cannot fail — the
queue's head advances to that successor, and the drained block has its
cursors zeroed and is relinked immediately after the current tail
(tail's link points at it; its link takes over the tail's old link). -/
theorem c8_pop_recycles_drained_head (q : Queue α) (live free : List Nat)
    (h : QInvAt q live free) (hl : 0 < q.len)
    (hb : (blkAt q.blocks q.head).begin + 1 = BLOCK_CAP) :
    ∃ v q' nxt, (blkAt q.blocks q.head).next = some nxt ∧
      q.pop_unchecked = some (v, q') ∧
      q'.head = nxt ∧ q'.tail = q.tail ∧
      (blkAt q'.blocks q.head).begin = 0 ∧ (blkAt q'.blocks q.head).«end» = 0 ∧
      (blkAt q'.blocks q.head).next = (blkAt q.blocks q.tail).next ∧
      (blkAt q'.blocks q.tail).next = some q.head :=
  pop_drained_head_recycled q live free h hl hb

/-- C8 witness: the concrete two-block queue with the head block down to
its last live slot. -/
theorem c8_witness :
    ∃ v q' nxt, (blkAt recycleReadyQueue.blocks recycleReadyQueue.head).next = some nxt ∧
      recycleReadyQueue.pop_unchecked = some (v, q') ∧
      q'.head = nxt ∧ q'.tail = recycleReadyQueue.tail ∧
      (blkAt q'.blocks recycleReadyQueue.head).begin = 0 ∧
      (blkAt q'.blocks recycleReadyQueue.head).«end» = 0 ∧
      (blkAt q'.blocks recycleReadyQueue.head).next
        = (blkAt recycleReadyQueue.blocks recycleReadyQueue.tail).next ∧
      (blkAt q'.blocks recycleReadyQueue.tail).next = some recycleReadyQueue.head :=
  c8_pop_recycles_drained_head recycleReadyQueue [0, 1] [] (by unfold QInvAt; decide)
    (by decide) (by decide)

end Claims

end LocalSync
